import Mathlib

/-!
# mojo_kernels: fact validation and near-duplicate detection

A verification development for `native/mojo_kernels/src/mojo_kernels.cpp`.

Modelling conventions.

* A `std::string` is a `List Char` (`Str`).  The two patterns of the source only
  refer to ASCII code points, so every other element of a string behaves as
  "some character outside all the listed classes".
* `std::regex` (ECMAScript grammar, classic locale) is modelled by a small
  abstract syntax `Regex` covering the constructs the two patterns of the source
  use, and by a backtracking executor `exec` that returns, in priority order,
  every remaining input the pattern can leave behind.  `regex_match`,
  `regex_search` and the `sregex_iterator` loop are defined on top of it.
* `double` values are exact rationals; a threshold is a finite number.
* `int` and `size_t` counters are natural numbers: the batch and the token sets
  live in memory, so their sizes stay far below the word size.
-/

namespace MojoKernels

/-- A `std::string`. -/
abbrev Str := List Char

/-! ## Regular expressions -/

/-- The classic-locale `isspace` class, which is what `\s` denotes:
space, `\t`, `\n`, `\v`, `\f`, `\r`. -/
def isSpace (c : Char) : Bool :=
  c.val == 32 || (9 ≤ c.val && c.val ≤ 13)

/-- One member of a bracket expression. -/
inductive ClassAtom where
  /-- A single character. -/
  | chr (c : Char)
  /-- A range `lo-hi`. -/
  | range (lo hi : Char)
  /-- The class escape `\s`. -/
  | space
  deriving DecidableEq, Repr

/-- Does the character belong to the class atom? -/
def ClassAtom.test (c : Char) : ClassAtom → Bool
  | .chr d => c == d
  | .range lo hi => lo.val ≤ c.val && c.val ≤ hi.val
  | .space => isSpace c

/-- Abstract syntax of the regular expressions that occur in the source. -/
inductive Regex where
  /-- The empty pattern. -/
  | eps
  /-- The assertion `^`. -/
  | bol
  /-- The assertion `$`. -/
  | eol
  /-- A literal character (also an escaped one such as `\(`). -/
  | chr (c : Char)
  /-- A bracket expression `[...]`, or `[^...]` when `neg` is set. -/
  | set (neg : Bool) (atoms : List ClassAtom)
  /-- Concatenation. -/
  | seq (r₁ r₂ : Regex)
  /-- Greedy `r*`. -/
  | star (r : Regex)
  deriving Repr

/-- Greedy `r+`, which is `r` followed by `r*`. -/
def Regex.plus (r : Regex) : Regex := .seq r (.star r)

/-- Concatenation of a sequence of patterns. -/
def Regex.cat : List Regex → Regex
  | [] => .eps
  | [r] => r
  | r :: rs => .seq r (Regex.cat rs)

/-- Does the character belong to the bracket expression? -/
def setTest (neg : Bool) (atoms : List ClassAtom) (c : Char) : Bool :=
  if neg then !(atoms.any (ClassAtom.test c)) else atoms.any (ClassAtom.test c)

/-- The loop of a greedy star.  `step` runs the body once; a round that consumes
nothing is discarded, more rounds are preferred to fewer.  Every round consumes
at least one character, so `fuel` equal to the length of the input suffices. -/
def starLoop (step : Str → List Str) : Nat → Str → List Str
  | 0, s => [s]
  | fuel + 1, s =>
    ((step s).filter (fun s' => s'.length < s.length)).flatMap (starLoop step fuel) ++ [s]

/-- The backtracking executor.  `exec n r s` runs pattern `r` on the remaining
input `s` of a target sequence of length `n` and returns every remaining input
`r` can leave, the preferred one first. -/
def exec (n : Nat) : Regex → Str → List Str
  | .eps, s => [s]
  | .bol, s => if s.length = n then [s] else []
  | .eol, s => if s.isEmpty then [s] else []
  | .chr c, s =>
    match s with
    | [] => []
    | d :: t => if d = c then [t] else []
  | .set neg atoms, s =>
    match s with
    | [] => []
    | d :: t => if setTest neg atoms d then [t] else []
  | .seq r₁ r₂, s => (exec n r₁ s).flatMap (exec n r₂)
  | .star r, s => starLoop (exec n r) s.length s

/-- The function `std::regex_match(s, r)`: some run of the executor consumes the whole
of `s`. -/
def regex_match (s : Str) (r : Regex) : Bool :=
  (exec s.length r s).any List.isEmpty

/-! ## The validator -/

/-- The bracket expression `[A-Za-z_]`. -/
def identStart : Regex := .set false [.range 'A' 'Z', .range 'a' 'z', .chr '_']

/-- The bracket expression `[A-Za-z0-9_]`. -/
def wordClass : Regex :=
  .set false [.range 'A' 'Z', .range 'a' 'z', .range '0' '9', .chr '_']

/-- The class escape `\s`. -/
def spaceClass : Regex := .set false [.space]

/-- The pattern of `validate_one`:
`^[A-Za-z_][A-Za-z0-9_]*\([^,\)]+,\s*[^\)]+\)\.\s*$`. -/
def pattern : Regex :=
  Regex.cat
    [ .bol, identStart, .star wordClass, .chr '(',
      Regex.plus (.set true [.chr ',', .chr ')']), .chr ',', .star spaceClass,
      Regex.plus (.set true [.chr ')']), .chr ')', .chr '.', .star spaceClass, .eol ]

/-- The function `validate_one`. -/
def validate_one (s : Str) : Bool :=
  regex_match s pattern

/-- The function `validate_facts_batch`: the loop pushes one verdict per statement. -/
def validate_facts_batch (statements : List Str) : List Bool :=
  statements.foldl (fun out s => out ++ [validate_one s]) []

/-! ## The duplicate finder -/

/-- The pattern `[A-Za-z0-9_]+` of `token_re`. -/
def token_re : Regex := Regex.plus wordClass

/-- One attempt of `regex_search` at the front of the remaining input `s`: the
preferred run of the executor, as the matched text and the input after it. -/
def matchHere (n : Nat) (r : Regex) (s : Str) : Option (Str × Str) :=
  (exec n r s).head?.map fun s' => (s.take (s.length - s'.length), s')

/-- The function `std::regex_search` on the remaining input: the leftmost position where
the executor succeeds, with the matched text and the input after the match. -/
def regex_search (n : Nat) (r : Regex) : Str → Option (Str × Str)
  | [] => matchHere n r []
  | c :: t =>
    match matchHere n r (c :: t) with
    | some m => some m
    | none => regex_search n r t

/-- The increment of `std::sregex_iterator`, from the current match `m` and the input
`rest` after it.  After an empty match the same position is retried for a
non-empty match before the search moves on by one character. -/
def iterNext (n : Nat) (r : Regex) (m rest : Str) : Option (Str × Str) :=
  if m.isEmpty then
    match rest with
    | [] => none
    | c :: t =>
      match (exec n r (c :: t)).find? (fun s' => s'.length < (c :: t).length) with
      | some s' => some ((c :: t).take ((c :: t).length - s'.length), s')
      | none => regex_search n r t
  else regex_search n r rest

/-- The loop `for (it = begin; it != end; ++it)` over a `std::sregex_iterator`,
collecting `it->str()`.  `cur` is the current match, `none` the end iterator. -/
def iterate (n : Nat) (r : Regex) : Nat → Option (Str × Str) → List Str
  | 0, _ => []
  | _ + 1, none => []
  | fuel + 1, some (m, rest) => m :: iterate n r fuel (iterNext n r m rest)

/-- All matches of `r` in `s`, as `std::sregex_iterator(s.begin(), s.end(), r)`
enumerates them.  A position yields at most one empty and one non-empty match,
which bounds the number of rounds. -/
def sregex_iterator (r : Regex) (s : Str) : List Str :=
  iterate s.length r (2 * s.length + 2) (regex_search s.length r s)

/-- A `std::unordered_set<std::string>`: a list without repetitions (the iteration
order of the container is unspecified; nothing below depends on it). -/
abbrev TokenSet := List Str

/-- The token set `tset` of one statement: every match of `token_re` is inserted. -/
def tokenSet (s : Str) : TokenSet :=
  (sregex_iterator token_re s).foldl (fun tset tok => List.insert tok tset) []

/-- The lambda `clamp` of `find_duplicates`. -/
def clamp (v : ℚ) : ℚ :=
  if v < 0 then 0 else if v > 1 then 1 else v

/-- The counter `inter`: the loop over `A` counts the tokens found in `B`. -/
def inter (A B : TokenSet) : Nat :=
  A.foldl (fun inter tok => if B.contains tok then inter + 1 else inter) 0

/-- The value `uni = A.size() + B.size() - inter`. -/
def uni (A B : TokenSet) : Nat :=
  A.length + B.length - inter A B

/-- The value `score = uni ? inter / uni : 0.0`. -/
def score (A B : TokenSet) : ℚ :=
  if uni A B ≠ 0 then (inter A B : ℚ) / (uni A B : ℚ) else 0

/-- The inner loop of `find_duplicates` for a fixed `i`: `j` runs from `i + 1` to
`n - 1` and appends to `out`. -/
def innerLoop (toks : List TokenSet) (thr : ℚ) (n i : Nat)
    (out : List (Nat × Nat × ℚ)) : List (Nat × Nat × ℚ) :=
  (List.range' (i + 1) (n - (i + 1))).foldl
    (fun out j =>
      if (toks.getD j []).isEmpty then out
      else
        let A := toks.getD i []
        let B := toks.getD j []
        if score A B ≥ thr then out ++ [(i, j, score A B)] else out)
    out

/-- The function `find_duplicates`. -/
def find_duplicates (statements : List Str) (threshold : ℚ) : List (Nat × Nat × ℚ) :=
  let thr := clamp threshold
  let n := statements.length
  let toks := statements.map tokenSet
  (List.range n).foldl
    (fun out i => if (toks.getD i []).isEmpty then out else innerLoop toks thr n i out)
    []

/-! ## Definitions used to state the properties -/

/-- An ASCII letter or the underscore: what may start an identifier. -/
def isIdentStart (c : Char) : Bool := c.isAlpha || c == '_'

/-- An ASCII letter, a digit or the underscore: what a token is made of. -/
def isWordChar (c : Char) : Bool := c.isAlpha || c.isDigit || c == '_'

/-- A run of whitespace characters (possibly empty). -/
def IsWhitespace (w : Str) : Prop := ∀ c ∈ w, isSpace c = true

instance (w : Str) : Decidable (IsWhitespace w) := by
  unfold IsWhitespace
  infer_instance

/-- An identifier: one letter or underscore, followed by zero or more letters,
digits or underscores. -/
def IsIdentifier (id : Str) : Prop :=
  ∃ (c : Char) (rest : Str), id = c :: rest ∧ (c.isAlpha = true ∨ c = '_') ∧
    ∀ d ∈ rest, d.isAlpha = true ∨ d.isDigit = true ∨ d = '_'

/-- The fixed grammar `identifier "(" argument "," argument ")" "."`, possibly
followed by whitespace, and nothing else. -/
def IsFact (s : Str) : Prop :=
  ∃ id a w₁ b w₂ : Str,
    s = id ++ ['('] ++ a ++ [','] ++ w₁ ++ b ++ [')', '.'] ++ w₂ ∧
    IsIdentifier id ∧
    (a ≠ [] ∧ ',' ∉ a ∧ ')' ∉ a) ∧
    IsWhitespace w₁ ∧ IsWhitespace w₂ ∧
    (b ≠ [] ∧ ')' ∉ b)

/-- What the body of the inner loop appends to `out` for the pair `(i, j)`. -/
def pairOut (toks : List TokenSet) (thr : ℚ) (i j : Nat) : List (Nat × Nat × ℚ) :=
  if (toks.getD j []).isEmpty then []
  else if score (toks.getD i []) (toks.getD j []) ≥ thr then
    [(i, j, score (toks.getD i []) (toks.getD j []))]
  else []

/-- What the body of the outer loop appends to `out` for `i`. -/
def rowOut (toks : List TokenSet) (thr : ℚ) (n i : Nat) : List (Nat × Nat × ℚ) :=
  if (toks.getD i []).isEmpty then []
  else (List.range' (i + 1) (n - (i + 1))).flatMap (pairOut toks thr i)

/-- Jaccard similarity `|A ∩ B| / |A ∪ B|` of two finite sets. -/
def jaccard (A B : Finset Str) : ℚ :=
  ((A ∩ B).card : ℚ) / ((A ∪ B).card : ℚ)

/-- A maximal run of word characters of `s`: a non-empty stretch of `s` made of
letters, digits and underscores that neither follows nor precedes such a character. -/
def IsMaximalRun (tok s : Str) : Prop :=
  ∃ pre post : Str, s = pre ++ tok ++ post ∧ tok ≠ [] ∧
    (∀ c ∈ tok, isWordChar c = true) ∧
    (∀ c, pre.getLast? = some c → isWordChar c = false) ∧
    (∀ c, post.head? = some c → isWordChar c = false)

/-! # Theorems -/

/-! ## The executor on the building blocks of the patterns -/

theorem exec_set_nil (n : Nat) (neg : Bool) (atoms : List ClassAtom) :
    exec n (.set neg atoms) [] = [] := rfl

theorem exec_set_cons (n : Nat) (neg : Bool) (atoms : List ClassAtom) (d : Char) (t : Str) :
    exec n (.set neg atoms) (d :: t) = if setTest neg atoms d = true then [t] else [] := rfl

theorem exec_star (n : Nat) (r : Regex) (s : Str) :
    exec n (.star r) s = starLoop (exec n r) s.length s := rfl

theorem mem_exec_chr (n : Nat) (c : Char) (s s' : Str) :
    s' ∈ exec n (.chr c) s ↔ s = c :: s' := by
  cases s with
  | nil => simp [exec]
  | cons d t =>
    by_cases h : d = c
    · simp [exec, h, eq_comm]
    · simp [exec, h]

theorem mem_exec_set (n : Nat) (neg : Bool) (atoms : List ClassAtom) (s s' : Str) :
    s' ∈ exec n (.set neg atoms) s ↔ ∃ c, s = c :: s' ∧ setTest neg atoms c = true := by
  cases s with
  | nil => simp [exec_set_nil]
  | cons d t =>
    rw [exec_set_cons]
    by_cases h : setTest neg atoms d = true
    · rw [if_pos h, List.mem_singleton]
      constructor
      · rintro rfl
        exact ⟨d, rfl, h⟩
      · rintro ⟨c, hc, _⟩
        exact (List.cons.inj hc).2.symm
    · rw [if_neg h]
      constructor
      · intro hmem
        exact absurd hmem (List.not_mem_nil _)
      · rintro ⟨c, hc, hcs⟩
        exact absurd ((List.cons.inj hc).1 ▸ hcs) h

theorem mem_exec_seq (n : Nat) (r₁ r₂ : Regex) (s s' : Str) :
    s' ∈ exec n (.seq r₁ r₂) s ↔ ∃ s₁, s₁ ∈ exec n r₁ s ∧ s' ∈ exec n r₂ s₁ := by
  simp [exec, List.mem_flatMap]

theorem mem_exec_bol (n : Nat) (s s' : Str) :
    s' ∈ exec n .bol s ↔ s' = s ∧ s.length = n := by
  by_cases h : s.length = n <;> simp [exec, h]

theorem mem_exec_eol (n : Nat) (s s' : Str) :
    s' ∈ exec n .eol s ↔ s' = [] ∧ s = [] := by
  cases s <;> simp [exec]

/-- The greedy star of a one-character test leaves exactly the inputs reached by
dropping a prefix of characters that all pass the test. -/
theorem mem_starLoop_test (step : Str → List Str) (p : Char → Bool)
    (hnil : step [] = []) (hcons : ∀ d t, step (d :: t) = if p d = true then [t] else []) :
    ∀ (fuel : Nat) (s s' : Str), s.length ≤ fuel →
      (s' ∈ starLoop step fuel s ↔ ∃ m, s = m ++ s' ∧ ∀ c ∈ m, p c = true) := by
  have base : ∀ s' : Str, (s' = [] ↔ ∃ m : Str, [] = m ++ s' ∧ ∀ c ∈ m, p c = true) := by
    intro s'
    constructor
    · rintro rfl
      exact ⟨[], rfl, by simp⟩
    · rintro ⟨m, hm, _⟩
      exact (List.append_eq_nil.mp hm.symm).2
  intro fuel
  induction fuel with
  | zero =>
    intro s s' h
    have hs : s = [] := List.length_eq_zero.mp (Nat.le_zero.mp h)
    subst hs
    simpa [starLoop] using base s'
  | succ k ih =>
    intro s s' h
    cases s with
    | nil => simpa [starLoop, hnil] using base s'
    | cons d t =>
      have ht : t.length ≤ k := by simpa using h
      by_cases hd : p d = true
      · have hstep : (step (d :: t)).filter (fun s' => s'.length < (d :: t).length) = [t] := by
          simp [hcons, hd]
        simp only [starLoop, hstep, List.flatMap_cons, List.flatMap_nil, List.append_nil,
          List.mem_append, List.mem_singleton, ih t s' ht]
        constructor
        · rintro (⟨m, rfl, hm⟩ | rfl)
          · refine ⟨d :: m, rfl, ?_⟩
            intro c hc
            rcases List.mem_cons.mp hc with rfl | hc
            · exact hd
            · exact hm c hc
          · exact ⟨[], rfl, by simp⟩
        · rintro ⟨m, hm, hall⟩
          cases m with
          | nil => right; simpa using hm.symm
          | cons e m =>
            left
            simp only [List.cons_append, List.cons.injEq] at hm
            exact ⟨m, hm.2, fun c hc => hall c (List.mem_cons_of_mem _ hc)⟩
      · have hstep : (step (d :: t)).filter (fun s' => s'.length < (d :: t).length) = [] := by
          simp [hcons, hd]
        simp only [starLoop, hstep, List.flatMap_nil, List.nil_append, List.mem_singleton]
        constructor
        · rintro rfl
          exact ⟨[], rfl, by simp⟩
        · rintro ⟨m, hm, hall⟩
          cases m with
          | nil => simpa using hm.symm
          | cons e m =>
            simp only [List.cons_append, List.cons.injEq] at hm
            exact absurd (hall e (List.mem_cons_self _ _)) (hm.1 ▸ hd)

theorem mem_exec_star_set (n : Nat) (neg : Bool) (atoms : List ClassAtom) (s s' : Str) :
    s' ∈ exec n (.star (.set neg atoms)) s ↔
      ∃ m, s = m ++ s' ∧ ∀ c ∈ m, setTest neg atoms c = true := by
  rw [exec_star]
  exact mem_starLoop_test _ (setTest neg atoms) (exec_set_nil n neg atoms)
    (exec_set_cons n neg atoms) s.length s s' (Nat.le_refl _)

theorem mem_exec_plus_set (n : Nat) (neg : Bool) (atoms : List ClassAtom) (s s' : Str) :
    s' ∈ exec n (Regex.plus (.set neg atoms)) s ↔
      ∃ m, m ≠ [] ∧ s = m ++ s' ∧ ∀ c ∈ m, setTest neg atoms c = true := by
  unfold Regex.plus
  rw [mem_exec_seq]
  constructor
  · rintro ⟨s₁, h₁, h₂⟩
    obtain ⟨c, rfl, hc⟩ := (mem_exec_set n neg atoms s s₁).mp h₁
    obtain ⟨m, rfl, hm⟩ := (mem_exec_star_set n neg atoms s₁ s').mp h₂
    refine ⟨c :: m, by simp, rfl, ?_⟩
    intro e he
    rcases List.mem_cons.mp he with rfl | he
    · exact hc
    · exact hm e he
  · rintro ⟨m, hne, rfl, hm⟩
    cases m with
    | nil => exact absurd rfl hne
    | cons c m =>
      refine ⟨m ++ s', (mem_exec_set n neg atoms _ _).mpr ⟨c, rfl, hm c (List.mem_cons_self _ _)⟩, ?_⟩
      exact (mem_exec_star_set n neg atoms _ _).mpr
        ⟨m, rfl, fun e he => hm e (List.mem_cons_of_mem _ he)⟩

/-! ## Character classes of the two patterns -/

theorem setTest_identStart (c : Char) :
    setTest false [.range 'A' 'Z', .range 'a' 'z', .chr '_'] c = isIdentStart c := by
  simp [setTest, ClassAtom.test, isIdentStart, Char.isAlpha, Char.isUpper, Char.isLower, Bool.or_assoc]

theorem setTest_wordClass (c : Char) :
    setTest false [.range 'A' 'Z', .range 'a' 'z', .range '0' '9', .chr '_'] c
      = isWordChar c := by
  simp [setTest, ClassAtom.test, isWordChar, Char.isAlpha, Char.isUpper, Char.isLower,
    Char.isDigit, Bool.or_assoc]

theorem setTest_space (c : Char) : setTest false [.space] c = isSpace c := by
  simp [setTest, ClassAtom.test]

theorem setTest_arg1 (c : Char) :
    setTest true [.chr ',', .chr ')'] c = true ↔ c ≠ ',' ∧ c ≠ ')' := by
  simp [setTest, ClassAtom.test]

theorem setTest_arg2 (c : Char) : setTest true [.chr ')'] c = true ↔ c ≠ ')' := by
  simp [setTest, ClassAtom.test]

/-! ## What the validator accepts -/

theorem regex_match_iff (s : Str) (r : Regex) :
    regex_match s r = true ↔ [] ∈ exec s.length r s := by
  unfold regex_match
  rw [List.any_eq_true]
  constructor
  · rintro ⟨x, hx, hx'⟩
    rw [List.isEmpty_iff] at hx'
    exact hx' ▸ hx
  · intro h
    exact ⟨[], h, rfl⟩

/-- The accepted statements, piece by piece, as the pattern reads them. -/
theorem validate_one_iff_parts (s : Str) :
    validate_one s = true ↔
      ∃ (c : Char) (id a w₁ b w₂ : Str),
        s = c :: id ++ '(' :: a ++ ',' :: w₁ ++ b ++ ')' :: '.' :: w₂ ∧
        isIdentStart c = true ∧ (∀ d ∈ id, isWordChar d = true) ∧
        a ≠ [] ∧ (∀ d ∈ a, d ≠ ',' ∧ d ≠ ')') ∧
        (∀ d ∈ w₁, isSpace d = true) ∧
        b ≠ [] ∧ (∀ d ∈ b, d ≠ ')') ∧
        (∀ d ∈ w₂, isSpace d = true) := by
  unfold validate_one
  rw [regex_match_iff]
  simp only [pattern, Regex.cat, identStart, wordClass, spaceClass, mem_exec_seq, mem_exec_bol,
    mem_exec_eol, mem_exec_chr, mem_exec_set, mem_exec_star_set, mem_exec_plus_set,
    setTest_identStart, setTest_wordClass, setTest_space, setTest_arg1, setTest_arg2]
  constructor
  · rintro ⟨s₁, ⟨rfl, -⟩, s₂, ⟨c, rfl, hc⟩, s₃, ⟨id, rfl, hid⟩, s₄, rfl, s₅, ⟨a, ha, rfl, ha'⟩,
      s₆, rfl, s₇, ⟨w₁, rfl, hw₁⟩, s₈, ⟨b, hb, rfl, hb'⟩, s₉, rfl, s₁₀, rfl, s₁₁,
      ⟨w₂, rfl, hw₂⟩, -, rfl⟩
    exact ⟨c, id, a, w₁, b, w₂, by simp, hc, hid, ha, ha', hw₁, hb, hb', hw₂⟩
  · rintro ⟨c, id, a, w₁, b, w₂, rfl, hc, hid, ha, ha', hw₁, hb, hb', hw₂⟩
    refine ⟨_, ⟨rfl, trivial⟩, _, ⟨c, rfl, hc⟩, '(' :: a ++ ',' :: w₁ ++ b ++ ')' :: '.' :: w₂,
      ⟨id, by simp, hid⟩, _, rfl, ',' :: w₁ ++ b ++ ')' :: '.' :: w₂, ⟨a, ha, by simp, ha'⟩,
      _, rfl, b ++ ')' :: '.' :: w₂, ⟨w₁, by simp, hw₁⟩, ')' :: '.' :: w₂, ⟨b, hb, rfl, hb'⟩,
      _, rfl, _, rfl, [], ⟨w₂, by simp, hw₂⟩, trivial, rfl⟩

/-! ## The grammar in the words of the specification -/

theorem isIdentStart_iff (c : Char) : isIdentStart c = true ↔ (c.isAlpha = true ∨ c = '_') := by
  simp [isIdentStart]

theorem isWordChar_iff (c : Char) :
    isWordChar c = true ↔ (c.isAlpha = true ∨ c.isDigit = true ∨ c = '_') := by
  simp [isWordChar, or_assoc]

theorem not_mem_iff_forall_ne (x : Char) (l : Str) : x ∉ l ↔ ∀ d ∈ l, d ≠ x := by
  constructor
  · intro h d hd hdx
    exact h (hdx ▸ hd)
  · intro h hx
    exact h x hx rfl

theorem isIdentifier_iff (id : Str) :
    IsIdentifier id ↔
      ∃ (c : Char) (rest : Str), id = c :: rest ∧ isIdentStart c = true ∧
        ∀ d ∈ rest, isWordChar d = true := by
  simp only [IsIdentifier, isIdentStart_iff, isWordChar_iff]

theorem validate_one_iff_isFact (s : Str) : validate_one s = true ↔ IsFact s := by
  rw [validate_one_iff_parts]
  constructor
  · rintro ⟨c, id, a, w₁, b, w₂, rfl, hc, hid, ha, ha', hw₁, hb, hb', hw₂⟩
    refine ⟨c :: id, a, w₁, b, w₂, by simp, (isIdentifier_iff _).mpr ⟨c, id, rfl, hc, hid⟩,
      ⟨ha, ?_, ?_⟩, hw₁, hw₂, hb, ?_⟩
    · exact (not_mem_iff_forall_ne _ _).mpr fun d hd => (ha' d hd).1
    · exact (not_mem_iff_forall_ne _ _).mpr fun d hd => (ha' d hd).2
    · exact (not_mem_iff_forall_ne _ _).mpr hb'
  · rintro ⟨id, a, w₁, b, w₂, rfl, hid, ⟨ha, ha₁, ha₂⟩, hw₁, hw₂, hb, hb'⟩
    obtain ⟨c, rest, rfl, hc, hrest⟩ := (isIdentifier_iff _).mp hid
    refine ⟨c, rest, a, w₁, b, w₂, by simp, hc, hrest, ha, ?_, hw₁, hb, ?_, hw₂⟩
    · intro d hd
      exact ⟨(not_mem_iff_forall_ne _ _).mp ha₁ d hd, (not_mem_iff_forall_ne _ _).mp ha₂ d hd⟩
    · exact (not_mem_iff_forall_ne _ _).mp hb'

theorem validate_one_eq_false_iff (s : Str) : validate_one s = false ↔ ¬ IsFact s := by
  rw [← validate_one_iff_isFact, Bool.not_eq_true]

/-! ## The batch validator -/

theorem foldl_push_eq (f : Str → Bool) (l : List Str) (init : List Bool) :
    l.foldl (fun out s => out ++ [f s]) init = init ++ l.map f := by
  induction l generalizing init with
  | nil => simp
  | cons x xs ih => simp [ih]

theorem validate_facts_batch_eq_map (S : List Str) :
    validate_facts_batch S = S.map validate_one := by
  simp [validate_facts_batch, foldl_push_eq]

/-! ## The loops of the duplicate finder -/

theorem foldl_append_eq {α β : Type} (f : α → List β) (g : List β → α → List β)
    (hg : ∀ out x, g out x = out ++ f x) (l : List α) (init : List β) :
    l.foldl g init = init ++ l.flatMap f := by
  induction l generalizing init with
  | nil => simp
  | cons x xs ih => simp [ih, hg, List.append_assoc]

theorem innerLoop_eq (toks : List TokenSet) (thr : ℚ) (n i : Nat)
    (out : List (Nat × Nat × ℚ)) :
    innerLoop toks thr n i out
      = out ++ (List.range' (i + 1) (n - (i + 1))).flatMap (pairOut toks thr i) := by
  unfold innerLoop
  apply foldl_append_eq
  intro out j
  unfold pairOut
  dsimp only
  by_cases h₁ : (toks.getD j []).isEmpty = true
  · rw [if_pos h₁, if_pos h₁, List.append_nil]
  · rw [if_neg h₁, if_neg h₁]
    by_cases h₂ : score (toks.getD i []) (toks.getD j []) ≥ thr
    · rw [if_pos h₂, if_pos h₂]
    · rw [if_neg h₂, if_neg h₂, List.append_nil]

theorem find_duplicates_eq (S : List Str) (t : ℚ) :
    find_duplicates S t
      = (List.range S.length).flatMap (rowOut (S.map tokenSet) (clamp t) S.length) := by
  unfold find_duplicates
  dsimp only
  rw [foldl_append_eq (rowOut (S.map tokenSet) (clamp t) S.length), List.nil_append]
  intro out i
  unfold rowOut
  by_cases h : ((S.map tokenSet).getD i []).isEmpty = true
  · rw [if_pos h, if_pos h, List.append_nil]
  · rw [if_neg h, if_neg h, innerLoop_eq]

theorem tokenSet_nil : tokenSet [] = [] := by decide

theorem getD_map_tokenSet (S : List Str) (i : Nat) :
    (S.map tokenSet).getD i [] = tokenSet (S.getD i []) := by
  have h := List.getD_map (l := S) (d := ([] : Str)) (n := i) tokenSet
  rw [tokenSet_nil] at h
  exact h

theorem isEmpty_eq_true_iff (l : TokenSet) : l.isEmpty = true ↔ l = [] := List.isEmpty_iff

theorem mem_pairOut (toks : List TokenSet) (thr : ℚ) (i j : Nat) (x : Nat × Nat × ℚ) :
    x ∈ pairOut toks thr i j ↔
      toks.getD j [] ≠ [] ∧ thr ≤ score (toks.getD i []) (toks.getD j []) ∧
        x = (i, j, score (toks.getD i []) (toks.getD j [])) := by
  unfold pairOut
  by_cases h₁ : (toks.getD j []).isEmpty = true
  · rw [if_pos h₁]
    have := (isEmpty_eq_true_iff _).mp h₁
    constructor
    · intro h
      exact absurd h (List.not_mem_nil _)
    · rintro ⟨h, -⟩
      exact absurd this h
  · rw [if_neg h₁]
    have hne : toks.getD j [] ≠ [] := fun h => h₁ ((isEmpty_eq_true_iff _).mpr h)
    by_cases h₂ : score (toks.getD i []) (toks.getD j []) ≥ thr
    · rw [if_pos h₂, List.mem_singleton]
      exact ⟨fun h => ⟨hne, h₂, h⟩, fun h => h.2.2⟩
    · rw [if_neg h₂]
      constructor
      · intro h
        exact absurd h (List.not_mem_nil _)
      · rintro ⟨-, h, -⟩
        exact absurd h h₂

theorem mem_rowOut (toks : List TokenSet) (thr : ℚ) (n i : Nat) (x : Nat × Nat × ℚ) :
    x ∈ rowOut toks thr n i ↔
      toks.getD i [] ≠ [] ∧ ∃ j, (i < j ∧ j < n) ∧ x ∈ pairOut toks thr i j := by
  unfold rowOut
  by_cases h₁ : (toks.getD i []).isEmpty = true
  · rw [if_pos h₁]
    have := (isEmpty_eq_true_iff _).mp h₁
    constructor
    · intro h
      exact absurd h (List.not_mem_nil _)
    · rintro ⟨h, -⟩
      exact absurd this h
  · rw [if_neg h₁, List.mem_flatMap]
    have hne : toks.getD i [] ≠ [] := fun h => h₁ ((isEmpty_eq_true_iff _).mpr h)
    constructor
    · rintro ⟨j, hj, hx⟩
      rw [List.mem_range'_1] at hj
      exact ⟨hne, j, ⟨by omega, by omega⟩, hx⟩
    · rintro ⟨-, j, hj, hx⟩
      exact ⟨j, by rw [List.mem_range'_1]; omega, hx⟩

/-- The triples of the result, one by one. -/
theorem mem_find_duplicates (S : List Str) (t : ℚ) (i j : Nat) (s : ℚ) :
    (i, j, s) ∈ find_duplicates S t ↔
      i < j ∧ j < S.length ∧ tokenSet (S.getD i []) ≠ [] ∧ tokenSet (S.getD j []) ≠ [] ∧
        s = score (tokenSet (S.getD i [])) (tokenSet (S.getD j [])) ∧ clamp t ≤ s := by
  rw [find_duplicates_eq, List.mem_flatMap]
  simp only [mem_rowOut, mem_pairOut, getD_map_tokenSet, List.mem_range, Prod.mk.injEq]
  constructor
  · rintro ⟨i', -, hA, j', ⟨hij, hj⟩, hB, hs, rfl, rfl, rfl⟩
    exact ⟨hij, hj, hA, hB, rfl, hs⟩
  · rintro ⟨hij, hj, hA, hB, rfl, hs⟩
    exact ⟨i, by omega, hA, j, ⟨hij, hj⟩, hB, hs, rfl, rfl, rfl⟩

/-! ## Token sets and the score -/

theorem foldl_insert_nodup (l : List Str) (init : TokenSet) (h : init.Nodup) :
    (l.foldl (fun tset tok => List.insert tok tset) init).Nodup := by
  induction l generalizing init with
  | nil => exact h
  | cons x xs ih =>
    rw [List.foldl_cons]
    apply ih
    by_cases hx : x ∈ init
    · rw [List.insert_of_mem hx]
      exact h
    · rw [List.insert_of_not_mem hx]
      exact List.nodup_cons.mpr ⟨hx, h⟩

/-- A token set holds every token once. -/
theorem tokenSet_nodup (s : Str) : (tokenSet s).Nodup :=
  foldl_insert_nodup _ [] List.nodup_nil

theorem foldl_count_eq (B : TokenSet) (A : TokenSet) (k : Nat) :
    A.foldl (fun inter tok => if B.contains tok then inter + 1 else inter) k
      = k + (A.filter (fun tok => B.contains tok)).length := by
  induction A generalizing k with
  | nil => simp
  | cons a A ih =>
    rw [List.foldl_cons, ih, List.filter_cons]
    by_cases h : B.contains a = true
    · rw [if_pos h, if_pos h, List.length_cons]
      omega
    · rw [if_neg h, if_neg h]

/-- The counter `inter` is the number of tokens of `A` that occur in `B`. -/
theorem inter_eq_length_filter (A B : TokenSet) :
    inter A B = (A.filter (fun tok => B.contains tok)).length := by
  unfold inter
  rw [foldl_count_eq, Nat.zero_add]

theorem inter_le_left (A B : TokenSet) : inter A B ≤ A.length := by
  rw [inter_eq_length_filter]
  exact List.length_filter_le _ _

/-- On duplicate-free lists the counter `inter` is the size of the intersection. -/
theorem inter_eq_card (A B : TokenSet) (hA : A.Nodup) :
    inter A B = (A.toFinset ∩ B.toFinset).card := by
  rw [inter_eq_length_filter, ← List.toFinset_card_of_nodup (hA.filter _), List.toFinset_filter]
  congr 1
  ext x
  simp [Finset.mem_filter, Finset.mem_inter]

theorem uni_eq_card (A B : TokenSet) (hA : A.Nodup) (hB : B.Nodup) :
    uni A B = (A.toFinset ∪ B.toFinset).card := by
  unfold uni
  rw [inter_eq_card A B hA]
  have h := Finset.card_union_add_card_inter A.toFinset B.toFinset
  rw [List.toFinset_card_of_nodup hA, List.toFinset_card_of_nodup hB] at h
  omega

theorem inter_le_uni (A B : TokenSet) (hA : A.Nodup) (hB : B.Nodup) : inter A B ≤ uni A B := by
  rw [inter_eq_card A B hA, uni_eq_card A B hA hB]
  exact Finset.card_le_card (Finset.inter_subset_union)

theorem score_eq_jaccard (A B : TokenSet) (hA : A.Nodup) (hB : B.Nodup) :
    score A B = jaccard A.toFinset B.toFinset := by
  unfold score jaccard
  rw [← inter_eq_card A B hA, ← uni_eq_card A B hA hB]
  by_cases h : uni A B = 0
  · simp [h]
  · simp [h]

theorem score_nonneg (A B : TokenSet) : 0 ≤ score A B := by
  unfold score
  split
  · positivity
  · exact le_refl _

theorem score_le_one (A B : TokenSet) (hA : A.Nodup) (hB : B.Nodup) : score A B ≤ 1 := by
  unfold score
  split
  · rename_i h
    have hpos : (0 : ℚ) < (uni A B : ℚ) := by
      exact_mod_cast Nat.pos_of_ne_zero h
    rw [div_le_one hpos]
    exact_mod_cast inter_le_uni A B hA hB
  · exact zero_le_one

/-- The clamp in the words of the specification: the nearest point of `[0, 1]`. -/
theorem clamp_eq_max_min (v : ℚ) : clamp v = max 0 (min 1 v) := by
  unfold clamp
  by_cases h₀ : v < 0
  · rw [if_pos h₀, min_eq_right (by linarith), max_eq_left (by linarith)]
  · rw [if_neg h₀]
    by_cases h₁ : v > 1
    · rw [if_pos h₁, min_eq_left (by linarith), max_eq_right (by linarith)]
    · rw [if_neg h₁, min_eq_right (by linarith), max_eq_right (by linarith)]

/-! ## Tokenization -/

theorem exec_token_re_nil (n : Nat) : exec n token_re [] = [] := rfl

theorem exec_token_re_cons (n : Nat) (c : Char) (t : Str) :
    exec n token_re (c :: t)
      = if isWordChar c = true then exec n (.star wordClass) t else [] := by
  show (exec n wordClass (c :: t)).flatMap (exec n (.star wordClass)) = _
  rw [wordClass, exec_set_cons, setTest_wordClass]
  by_cases h : isWordChar c = true
  · rw [if_pos h, if_pos h, List.flatMap_cons, List.flatMap_nil, List.append_nil]
  · rw [if_neg h, if_neg h, List.flatMap_nil]

/-- No match of `token_re` starts at a character outside the word class. -/
theorem matchHere_token_re_of_not_word (n : Nat) (c : Char) (t : Str)
    (h : isWordChar c = false) : matchHere n token_re (c :: t) = none := by
  unfold matchHere
  rw [exec_token_re_cons, if_neg (by simp [h])]
  rfl

theorem regex_search_token_re_of_no_word (n : Nat) (s : Str)
    (h : ∀ c ∈ s, isWordChar c = false) : regex_search n token_re s = none := by
  induction s with
  | nil => rfl
  | cons c t ih =>
    rw [regex_search, matchHere_token_re_of_not_word n c t (h c (List.mem_cons_self _ _))]
    exact ih fun d hd => h d (List.mem_cons_of_mem _ hd)

/-- A statement without letters, digits and underscores has no tokens. -/
theorem tokenSet_of_no_word (s : Str) (h : ∀ c ∈ s, isWordChar c = false) :
    tokenSet s = [] := by
  unfold tokenSet sregex_iterator
  rw [regex_search_token_re_of_no_word _ s h]
  rfl

theorem starLoop_ne_nil (step : Str → List Str) (fuel : Nat) (s : Str) :
    starLoop step fuel s ≠ [] := by
  cases fuel with
  | zero => simp [starLoop]
  | succ k => simp [starLoop]

theorem matchHere_token_re_of_word (n : Nat) (c : Char) (t : Str) (h : isWordChar c = true) :
    ∃ m, matchHere n token_re (c :: t) = some m := by
  unfold matchHere
  rw [exec_token_re_cons, if_pos h, exec_star]
  cases hL : starLoop (exec n wordClass) t.length t with
  | nil => exact absurd hL (starLoop_ne_nil _ _ _)
  | cons s' rest => exact ⟨_, rfl⟩

theorem regex_search_token_re_of_word (n : Nat) (s : Str)
    (h : ∃ c ∈ s, isWordChar c = true) : ∃ m, regex_search n token_re s = some m := by
  induction s with
  | nil =>
    obtain ⟨c, hc, -⟩ := h
    exact absurd hc (List.not_mem_nil _)
  | cons c t ih =>
    rw [regex_search]
    by_cases hc : isWordChar c = true
    · obtain ⟨m, hm⟩ := matchHere_token_re_of_word n c t hc
      rw [hm]
      exact ⟨m, rfl⟩
    · rw [matchHere_token_re_of_not_word n c t (by simpa using hc)]
      apply ih
      obtain ⟨d, hd, hd'⟩ := h
      rcases List.mem_cons.mp hd with rfl | hd
      · exact absurd hd' hc
      · exact ⟨d, hd, hd'⟩

theorem foldl_insert_ne_nil (l : List Str) (init : TokenSet) (h : init ≠ [] ∨ l ≠ []) :
    l.foldl (fun tset tok => List.insert tok tset) init ≠ [] := by
  induction l generalizing init with
  | nil =>
    rcases h with h | h
    · exact h
    · exact absurd rfl h
  | cons x xs ih =>
    rw [List.foldl_cons]
    apply ih
    left
    by_cases hx : x ∈ init
    · rw [List.insert_of_mem hx]
      exact List.ne_nil_of_mem hx
    · rw [List.insert_of_not_mem hx]
      exact List.cons_ne_nil _ _

/-- The token set of a statement is empty exactly when the statement has no letter,
digit or underscore. -/
theorem tokenSet_eq_nil_iff (s : Str) :
    tokenSet s = [] ↔ ∀ c ∈ s, isWordChar c = false := by
  constructor
  · intro h c hc
    by_contra hw
    obtain ⟨⟨m, rest⟩, hm⟩ := regex_search_token_re_of_word s.length s
      ⟨c, hc, by simpa using hw⟩
    apply foldl_insert_ne_nil (sregex_iterator token_re s) [] _ h
    right
    unfold sregex_iterator
    rw [hm, show 2 * s.length + 2 = (2 * s.length + 1) + 1 from rfl, iterate]
    exact List.cons_ne_nil _ _
  · exact tokenSet_of_no_word s

theorem score_self (A : TokenSet) (hne : A ≠ []) (hA : A.Nodup) : score A A = 1 := by
  rw [score_eq_jaccard A A hA hA]
  unfold jaccard
  rw [Finset.inter_self, Finset.union_self]
  have hpos : 0 < A.toFinset.card := by
    rw [List.toFinset_card_of_nodup hA]
    exact List.length_pos.mpr hne
  have : (A.toFinset.card : ℚ) ≠ 0 := by exact_mod_cast hpos.ne'
  exact div_self this

theorem clamp_le_one (t : ℚ) : clamp t ≤ 1 := by
  rw [clamp_eq_max_min]
  exact max_le zero_le_one (min_le_left _ _)

theorem clamp_nonneg (t : ℚ) : 0 ≤ clamp t := by
  rw [clamp_eq_max_min]
  exact le_max_left _ _

/-- Two equal statements with tokens are reported with score one. -/
theorem mem_find_duplicates_of_eq (S : List Str) (t : ℚ) (i j : Nat) (hij : i < j)
    (hj : j < S.length) (heq : S.getD i [] = S.getD j [])
    (hne : tokenSet (S.getD i []) ≠ []) : (i, j, (1 : ℚ)) ∈ find_duplicates S t := by
  rw [mem_find_duplicates, ← heq, score_self _ hne (tokenSet_nodup _)]
  exact ⟨hij, hj, hne, hne, rfl, clamp_le_one t⟩

theorem find_duplicates_congr (S : List Str) (t t' : ℚ) (h : clamp t = clamp t') :
    find_duplicates S t = find_duplicates S t' := by
  rw [find_duplicates_eq, find_duplicates_eq, h]

theorem dropWhile_append_of_all {α : Type} (p : α → Bool) (l₁ l₂ : List α)
    (h : ∀ x ∈ l₁, p x = true) : (l₁ ++ l₂).dropWhile p = l₂.dropWhile p := by
  induction l₁ with
  | nil => rfl
  | cons x xs ih =>
    rw [List.cons_append, List.dropWhile_cons, if_pos (h x (List.mem_cons_self _ _))]
    exact ih fun y hy => h y (List.mem_cons_of_mem _ hy)

/-! ## The matches of `token_re` are the maximal runs of word characters -/

/-- The preferred run of a greedy star over a one-character test consumes the longest
prefix of characters that pass the test. -/
theorem head?_starLoop_test (step : Str → List Str) (p : Char → Bool)
    (hnil : step [] = []) (hcons : ∀ d t, step (d :: t) = if p d = true then [t] else []) :
    ∀ (fuel : Nat) (s : Str), s.length ≤ fuel →
      (starLoop step fuel s).head? = some (s.dropWhile p) := by
  intro fuel
  induction fuel with
  | zero =>
    intro s h
    have hs : s = [] := List.length_eq_zero.mp (Nat.le_zero.mp h)
    subst hs
    rfl
  | succ k ih =>
    intro s h
    cases s with
    | nil => simp [starLoop, hnil]
    | cons d t =>
      have ht : t.length ≤ k := by simpa using h
      by_cases hd : p d = true
      · have hstep : (step (d :: t)).filter (fun s' => s'.length < (d :: t).length) = [t] := by
          simp [hcons, hd]
        have hne := starLoop_ne_nil step k t
        simp only [starLoop, hstep, List.flatMap_cons, List.flatMap_nil, List.append_nil]
        rw [List.head?_append_of_ne_nil _ hne, ih t ht, List.dropWhile_cons, if_pos hd]
      · have hstep : (step (d :: t)).filter (fun s' => s'.length < (d :: t).length) = [] := by
          simp [hcons, hd]
        simp only [starLoop, hstep, List.flatMap_nil, List.nil_append, List.head?_cons]
        rw [List.dropWhile_cons, if_neg hd]

theorem length_takeWhile_add_dropWhile (p : Char → Bool) (s : Str) :
    (s.takeWhile p).length + (s.dropWhile p).length = s.length := by
  have h := congrArg List.length (List.takeWhile_append_dropWhile p s)
  rwa [List.length_append] at h

theorem take_length_sub_dropWhile (p : Char → Bool) (s : Str) :
    s.take (s.length - (s.dropWhile p).length) = s.takeWhile p := by
  have hlen : s.length - (s.dropWhile p).length = (s.takeWhile p).length := by
    have := length_takeWhile_add_dropWhile p s
    omega
  have h := List.take_left (s.takeWhile p) (s.dropWhile p)
  rw [List.takeWhile_append_dropWhile] at h
  rw [hlen, h]

/-- At a word character, `token_re` matches the whole run of word characters that
starts there. -/
theorem matchHere_token_re_word (n : Nat) (c : Char) (t : Str) (h : isWordChar c = true) :
    matchHere n token_re (c :: t)
      = some (c :: t.takeWhile isWordChar, t.dropWhile isWordChar) := by
  unfold matchHere
  rw [exec_token_re_cons, if_pos h, exec_star]
  have hhead := head?_starLoop_test (exec n wordClass) isWordChar
    (exec_set_nil n _ _)
    (fun d t => by rw [wordClass, exec_set_cons, setTest_wordClass]) t.length t (Nat.le_refl _)
  rw [hhead, Option.map_some']
  have hlen : (c :: t).length - (t.dropWhile isWordChar).length
      = (t.length - (t.dropWhile isWordChar).length) + 1 := by
    have := length_takeWhile_add_dropWhile isWordChar t
    simp only [List.length_cons]
    omega
  rw [hlen, List.take_succ_cons, take_length_sub_dropWhile]

theorem regex_search_token_re_cons_not_word (n : Nat) (c : Char) (t : Str)
    (h : isWordChar c = false) :
    regex_search n token_re (c :: t) = regex_search n token_re t := by
  rw [regex_search, matchHere_token_re_of_not_word n c t h]

theorem regex_search_token_re_cons_word (n : Nat) (c : Char) (t : Str)
    (h : isWordChar c = true) :
    regex_search n token_re (c :: t)
      = some (c :: t.takeWhile isWordChar, t.dropWhile isWordChar) := by
  rw [regex_search, matchHere_token_re_word n c t h]

theorem regex_search_token_re_length (n : Nat) (s m rest : Str)
    (h : regex_search n token_re s = some (m, rest)) : m ≠ [] ∧ rest.length < s.length := by
  induction s with
  | nil => exact absurd h (by rw [regex_search_token_re_of_no_word n [] (by simp)]; simp)
  | cons c t ih =>
    by_cases hc : isWordChar c = true
    · rw [regex_search_token_re_cons_word n c t hc] at h
      simp only [Option.some.injEq, Prod.mk.injEq] at h
      obtain ⟨rfl, rfl⟩ := h
      have := length_takeWhile_add_dropWhile isWordChar t
      exact ⟨List.cons_ne_nil _ _, by simp only [List.length_cons]; omega⟩
    · rw [regex_search_token_re_cons_not_word n c t (by simpa using hc)] at h
      have := ih h
      exact ⟨this.1, by simp only [List.length_cons]; omega⟩

theorem regex_search_token_re_indep (n n' : Nat) (s : Str) :
    regex_search n token_re s = regex_search n' token_re s := by
  induction s with
  | nil => rfl
  | cons c t ih =>
    by_cases hc : isWordChar c = true
    · rw [regex_search_token_re_cons_word n c t hc, regex_search_token_re_cons_word n' c t hc]
    · rw [regex_search_token_re_cons_not_word n c t (by simpa using hc),
        regex_search_token_re_cons_not_word n' c t (by simpa using hc), ih]

theorem iterNext_of_ne_nil (n : Nat) (r : Regex) (m rest : Str) (h : m ≠ []) :
    iterNext n r m rest = regex_search n r rest := by
  unfold iterNext
  rw [if_neg]
  rw [List.isEmpty_iff]
  exact h

/-- The loop over the matches of `token_re` never runs out of rounds: any two bounds
above the length of the remaining input give the same matches. -/
theorem iterate_token_re_indep :
    ∀ (k : Nat) (s : Str) (n n' fuel fuel' : Nat), s.length ≤ k →
      s.length + 1 ≤ fuel → s.length + 1 ≤ fuel' →
      iterate n token_re fuel (regex_search n token_re s)
        = iterate n' token_re fuel' (regex_search n' token_re s) := by
  intro k
  induction k with
  | zero =>
    intro s n n' fuel fuel' hk hf hf'
    have hs : s = [] := List.length_eq_zero.mp (Nat.le_zero.mp hk)
    subst hs
    obtain ⟨f, rfl⟩ : ∃ f, fuel = f + 1 := ⟨fuel - 1, by omega⟩
    obtain ⟨f', rfl⟩ : ∃ f', fuel' = f' + 1 := ⟨fuel' - 1, by omega⟩
    rfl
  | succ k ih =>
    intro s n n' fuel fuel' hk hf hf'
    obtain ⟨f, rfl⟩ : ∃ f, fuel = f + 1 := ⟨fuel - 1, by omega⟩
    obtain ⟨f', rfl⟩ : ∃ f', fuel' = f' + 1 := ⟨fuel' - 1, by omega⟩
    rw [regex_search_token_re_indep n' n s]
    cases hsearch : regex_search n token_re s with
    | none => rfl
    | some mr =>
      obtain ⟨m, rest⟩ := mr
      obtain ⟨hm, hlen⟩ := regex_search_token_re_length n s m rest hsearch
      rw [iterate, iterate, iterNext_of_ne_nil n _ m rest hm, iterNext_of_ne_nil n' _ m rest hm,
        ih rest n n' f f' (by omega) (by omega) (by omega)]

theorem sregex_iterator_token_re_nil : sregex_iterator token_re [] = [] := rfl

/-- Characters outside the word class are skipped. -/
theorem sregex_iterator_token_re_cons_not_word (c : Char) (t : Str)
    (h : isWordChar c = false) :
    sregex_iterator token_re (c :: t) = sregex_iterator token_re t := by
  unfold sregex_iterator
  rw [regex_search_token_re_cons_not_word _ c t h]
  exact iterate_token_re_indep t.length t _ _ _ _ (Nat.le_refl _)
    (by simp only [List.length_cons]; omega) (by omega)

/-- At a word character the next token is the whole run of word characters that
starts there, and the scan goes on after the run. -/
theorem sregex_iterator_token_re_cons_word (c : Char) (t : Str) (h : isWordChar c = true) :
    sregex_iterator token_re (c :: t)
      = (c :: t.takeWhile isWordChar) :: sregex_iterator token_re (t.dropWhile isWordChar) := by
  unfold sregex_iterator
  rw [regex_search_token_re_cons_word _ c t h,
    show 2 * (c :: t).length + 2 = (2 * (c :: t).length + 1) + 1 from rfl, iterate,
    iterNext_of_ne_nil _ _ _ _ (List.cons_ne_nil _ _)]
  congr 1
  have := length_takeWhile_add_dropWhile isWordChar t
  exact iterate_token_re_indep (t.dropWhile isWordChar).length _ _ _ _ _ (Nat.le_refl _)
    (by simp only [List.length_cons]; omega) (by omega)

/-! ## The validator: claims -/

/-- C1: `validate_one s` is true exactly when `s` can be written as
`id ++ "(" ++ a ++ "," ++ w₁ ++ b ++ ")." ++ w₂` with `id` an identifier, `a` a
non-empty string without `,` and `)`, `w₁` and `w₂` runs of whitespace and `b` a
non-empty string without `)`; nothing precedes `id` or follows `w₂`. -/
theorem validate_one_iff_grammar (s : Str) :
    validate_one s = true ↔
      ∃ id a w₁ b w₂ : Str,
        s = id ++ ['('] ++ a ++ [','] ++ w₁ ++ b ++ [')', '.'] ++ w₂ ∧
        IsIdentifier id ∧
        (a ≠ [] ∧ ',' ∉ a ∧ ')' ∉ a) ∧
        IsWhitespace w₁ ∧ IsWhitespace w₂ ∧
        (b ≠ [] ∧ ')' ∉ b) :=
  validate_one_iff_isFact s

/-- C2, as stated, fails: with `f = "f"`, `a = ""`, `b = "b"` the statement
`f(, b).` meets every condition of the claim (`f` starts with a letter, `a` has no
`,` and no `)`, `b` has no `)`) and is rejected, and so is `f-g(a, b).`, whose `f`
starts with a letter. -/
theorem validate_one_rejects_loose_form :
    (isIdentStart 'f' = true ∧ ',' ∉ ([] : Str) ∧ ')' ∉ ([] : Str) ∧ ')' ∉ ['b'] ∧
      validate_one (['f'] ++ ['('] ++ [] ++ [',', ' '] ++ ['b'] ++ [')', '.']) = false) ∧
    (isIdentStart 'f' = true ∧ ',' ∉ ['a'] ∧ ')' ∉ ['a'] ∧ ')' ∉ ['b'] ∧
      validate_one (['f', '-', 'g'] ++ ['('] ++ ['a'] ++ [',', ' '] ++ ['b'] ++ [')', '.'])
        = false) := by
  decide

/-- C2, amended: for every statement `f ++ "(" ++ a ++ ", " ++ b ++ ")."` where `f` is
an identifier, `a` is non-empty without `,` and `)`, and `b` has no `)`,
`validate_one` returns true, and it still returns true when a run of whitespace is
appended. -/
theorem validate_one_accepts_fact (f a b w : Str) (hf : IsIdentifier f) (ha : a ≠ [])
    (ha₁ : ',' ∉ a) (ha₂ : ')' ∉ a) (hb : ')' ∉ b) (hw : IsWhitespace w) :
    validate_one (f ++ ['('] ++ a ++ [',', ' '] ++ b ++ [')', '.']) = true ∧
      validate_one (f ++ ['('] ++ a ++ [',', ' '] ++ b ++ [')', '.'] ++ w) = true := by
  have key : ∀ w' : Str, IsWhitespace w' →
      validate_one (f ++ ['('] ++ a ++ [',', ' '] ++ b ++ [')', '.'] ++ w') = true := by
    intro w' hw'
    rw [validate_one_iff_isFact]
    refine ⟨f, a, [], ' ' :: b, w', by simp, hf, ⟨ha, ha₁, ha₂⟩, ?_, hw', List.cons_ne_nil _ _, ?_⟩
    · intro c hc
      exact absurd hc (List.not_mem_nil _)
    · intro h
      rcases List.mem_cons.mp h with h | h
      · exact absurd h (by decide)
      · exact hb h
  refine ⟨?_, key w hw⟩
  have h := key [] (fun c hc => absurd hc (List.not_mem_nil _))
  rwa [List.append_nil] at h

/-- C2, amended, at `f = "Likes"`, `a = "a"`, `b = "b"`, `w = " "`. -/
theorem validate_one_accepts_fact_witness :
    validate_one (['L', 'i', 'k', 'e', 's'] ++ ['('] ++ ['a'] ++ [',', ' '] ++ ['b']
        ++ [')', '.']) = true ∧
      validate_one (['L', 'i', 'k', 'e', 's'] ++ ['('] ++ ['a'] ++ [',', ' '] ++ ['b']
        ++ [')', '.'] ++ [' ']) = true :=
  validate_one_accepts_fact ['L', 'i', 'k', 'e', 's'] ['a'] ['b'] [' ']
    ⟨'L', ['i', 'k', 'e', 's'], rfl, Or.inl (by decide), by decide⟩
    (by decide) (by decide) (by decide) (by decide) (by decide)

/-- C3: `validate_one s` is false whenever the last non-whitespace character of `s`
is not `.`, or `s` has no `(`, or `s` has no `)`, or the first character of `s` is not
a letter or underscore. -/
theorem validate_one_false_of_malformed (s : Str)
    (h : (s.reverse.dropWhile isSpace).head? ≠ some '.' ∨ '(' ∉ s ∨ ')' ∉ s ∨
      ∀ c, s.head? = some c → isIdentStart c = false) :
    validate_one s = false := by
  rw [← Bool.not_eq_true, validate_one_iff_parts]
  rintro ⟨c, id, a, w₁, b, w₂, rfl, hc, -, -, -, -, -, -, hw₂⟩
  rcases h with h | h | h | h
  · apply h
    have hrev : (c :: id ++ '(' :: a ++ ',' :: w₁ ++ b ++ ')' :: '.' :: w₂).reverse
        = w₂.reverse ++ ('.' :: (c :: id ++ '(' :: a ++ ',' :: w₁ ++ b ++ [')']).reverse) := by
      simp
    rw [hrev, dropWhile_append_of_all isSpace _ _ (fun x hx => hw₂ x (List.mem_reverse.mp hx)),
      List.dropWhile_cons, if_neg (by decide)]
    rfl
  · exact h (by simp)
  · exact h (by simp)
  · have := h c rfl
    rw [hc] at this
    exact Bool.noConfusion this

/-- C3 at `"f(a, b)"` (no period), `"fab."` (no parenthesis) and `"(a, b)."` (no
identifier). -/
theorem validate_one_false_of_malformed_witness :
    validate_one ['f', '(', 'a', ',', ' ', 'b', ')'] = false ∧
      validate_one ['f', 'a', 'b', '.'] = false ∧
      validate_one ['(', 'a', ',', ' ', 'b', ')', '.'] = false :=
  ⟨validate_one_false_of_malformed _ (Or.inl (by decide)),
    validate_one_false_of_malformed _ (Or.inr (Or.inl (by decide))),
    validate_one_false_of_malformed _ (Or.inr (Or.inr (Or.inr (by decide))))⟩

/-- C4: `validate_facts_batch S` has the length of `S`, its `k`-th element is
`validate_one` of the `k`-th statement, and so it is the same for two batches that
agree at position `k`. -/
theorem validate_facts_batch_elementwise (S : List Str) :
    (validate_facts_batch S).length = S.length ∧
      (∀ (k : Nat) (hk : k < S.length),
        (validate_facts_batch S)[k]? = some (validate_one (S.get ⟨k, hk⟩))) ∧
      (∀ (S' : List Str) (k : Nat), k < S.length → S[k]? = S'[k]? →
        (validate_facts_batch S)[k]? = (validate_facts_batch S')[k]?) := by
  refine ⟨?_, ?_, ?_⟩
  · rw [validate_facts_batch_eq_map, List.length_map]
  · intro k hk
    rw [validate_facts_batch_eq_map, List.getElem?_map, List.getElem?_eq_getElem hk]
    rfl
  · intro S' k _ h
    rw [validate_facts_batch_eq_map, validate_facts_batch_eq_map, List.getElem?_map,
      List.getElem?_map, h]

/-- C4 at the batch `["f(a, b).", "bad"]`. -/
theorem validate_facts_batch_elementwise_witness :
    (validate_facts_batch [['f', '(', 'a', ',', ' ', 'b', ')', '.'], ['b', 'a', 'd']]).length = 2 ∧
      (validate_facts_batch [['f', '(', 'a', ',', ' ', 'b', ')', '.'], ['b', 'a', 'd']])[1]?
        = some (validate_one ['b', 'a', 'd']) :=
  ⟨(validate_facts_batch_elementwise _).1,
    (validate_facts_batch_elementwise _).2.1 1 (by decide)⟩

/-! ## The duplicate finder: claims -/

/-- C5: a triple `(i, j, s)` occurs in `find_duplicates S t` exactly when
`0 ≤ i < j < n`, the token sets `A` of `S[i]` and `B` of `S[j]` are both non-empty,
`s = |A ∩ B| / |A ∪ B|` and `s` is at least `t` clamped into `[0, 1]`; and the value
`inter / (|A| + |B| - inter)` the code computes is that Jaccard similarity. -/
theorem find_duplicates_mem_iff_jaccard (S : List Str) (t : ℚ) (i j : Nat) (s : ℚ) :
    ((i, j, s) ∈ find_duplicates S t ↔
      (0 ≤ i ∧ i < j ∧ j < S.length) ∧
        (tokenSet (S.getD i [])).toFinset.Nonempty ∧
        (tokenSet (S.getD j [])).toFinset.Nonempty ∧
        s = jaccard (tokenSet (S.getD i [])).toFinset (tokenSet (S.getD j [])).toFinset ∧
        s ≥ max 0 (min 1 t)) ∧
    ((inter (tokenSet (S.getD i [])) (tokenSet (S.getD j [])) : ℚ) /
        (((tokenSet (S.getD i [])).length + (tokenSet (S.getD j [])).length
          - inter (tokenSet (S.getD i [])) (tokenSet (S.getD j [])) : ℕ) : ℚ)
      = jaccard (tokenSet (S.getD i [])).toFinset (tokenSet (S.getD j [])).toFinset) := by
  have hA := tokenSet_nodup (S.getD i [])
  have hB := tokenSet_nodup (S.getD j [])
  constructor
  · rw [mem_find_duplicates, score_eq_jaccard _ _ hA hB, ← clamp_eq_max_min,
      List.toFinset_nonempty_iff, List.toFinset_nonempty_iff]
    constructor
    · rintro ⟨h₁, h₂, h₃, h₄, h₅, h₆⟩
      exact ⟨⟨Nat.zero_le _, h₁, h₂⟩, h₃, h₄, h₅, h₆⟩
    · rintro ⟨⟨-, h₁, h₂⟩, h₃, h₄, h₅, h₆⟩
      exact ⟨h₁, h₂, h₃, h₄, h₅, h₆⟩
  · have h := score_eq_jaccard _ _ hA hB
    rw [← h, score]
    by_cases hu : uni (tokenSet (S.getD i [])) (tokenSet (S.getD j [])) = 0
    · rw [if_neg (not_not.mpr hu)]
      unfold uni at hu
      rw [hu]
      simp
    · rw [if_pos hu]
      rfl

/-- C6: every triple `(i, j, score)` of `find_duplicates S t` has `0 ≤ i < j < n` and
`0 ≤ score ≤ 1`. -/
theorem find_duplicates_bounds (S : List Str) (t : ℚ) (x : Nat × Nat × ℚ)
    (hx : x ∈ find_duplicates S t) :
    (0 ≤ x.1 ∧ x.1 < x.2.1 ∧ x.2.1 < S.length) ∧ (0 ≤ x.2.2 ∧ x.2.2 ≤ 1) := by
  obtain ⟨i, j, s⟩ := x
  obtain ⟨hij, hj, -, -, rfl, -⟩ := (mem_find_duplicates S t i j s).mp hx
  exact ⟨⟨Nat.zero_le _, hij, hj⟩, score_nonneg _ _,
    score_le_one _ _ (tokenSet_nodup _) (tokenSet_nodup _)⟩

/-- C6 at the batch `["a", "a"]`, threshold `1/2` and the triple `(0, 1, 1)`. -/
theorem find_duplicates_bounds_witness :
    (0 ≤ 0 ∧ 0 < 1 ∧ 1 < [['a'], ['a']].length) ∧ (0 ≤ (1 : ℚ) ∧ (1 : ℚ) ≤ 1) :=
  find_duplicates_bounds [['a'], ['a']] (1 / 2) (0, 1, 1)
    (mem_find_duplicates_of_eq _ _ 0 1 (by decide) (by decide) rfl (by decide))

/-- C7: the index pairs of `find_duplicates S t`, in output order, are strictly
increasing lexicographically (by `i`, then by `j`), whatever the scores are; so no
index pair occurs twice and none occurs reversed. -/
theorem find_duplicates_index_order (S : List Str) (t : ℚ) :
    (find_duplicates S t).Pairwise
        (fun x y => x.1 < y.1 ∨ (x.1 = y.1 ∧ x.2.1 < y.2.1)) ∧
      ((find_duplicates S t).map (fun x => (x.1, x.2.1))).Nodup ∧
      (∀ x ∈ find_duplicates S t, ∀ y ∈ find_duplicates S t,
        ¬ (x.1 = y.2.1 ∧ x.2.1 = y.1)) := by
  have hlex : (find_duplicates S t).Pairwise
      (fun x y => x.1 < y.1 ∨ (x.1 = y.1 ∧ x.2.1 < y.2.1)) := by
    rw [find_duplicates_eq, List.pairwise_flatMap]
    constructor
    · intro i _
      unfold rowOut
      split
      · exact List.Pairwise.nil
      · rw [List.pairwise_flatMap]
        constructor
        · intro j _
          unfold pairOut
          split
          · exact List.Pairwise.nil
          · split
            · exact List.pairwise_singleton _ _
            · exact List.Pairwise.nil
        · refine List.Pairwise.imp ?_ (List.pairwise_lt_range' (i + 1) (S.length - (i + 1)))
          intro j₁ j₂ hlt x hx y hy
          obtain ⟨-, -, rfl⟩ := (mem_pairOut _ _ _ _ _).mp hx
          obtain ⟨-, -, rfl⟩ := (mem_pairOut _ _ _ _ _).mp hy
          exact Or.inr ⟨rfl, hlt⟩
    · refine List.Pairwise.imp ?_ (List.pairwise_lt_range S.length)
      intro i₁ i₂ hlt x hx y hy
      obtain ⟨-, j₁, -, hx'⟩ := (mem_rowOut _ _ _ _ _).mp hx
      obtain ⟨-, j₂, -, hy'⟩ := (mem_rowOut _ _ _ _ _).mp hy
      obtain ⟨-, -, rfl⟩ := (mem_pairOut _ _ _ _ _).mp hx'
      obtain ⟨-, -, rfl⟩ := (mem_pairOut _ _ _ _ _).mp hy'
      exact Or.inl hlt
  refine ⟨hlex, ?_, ?_⟩
  · rw [List.Nodup, List.pairwise_map]
    refine List.Pairwise.imp ?_ hlex
    intro x y hxy heq
    simp only [Prod.mk.injEq] at heq
    rcases hxy with h | ⟨-, h⟩
    · exact absurd heq.1 (Nat.ne_of_lt h)
    · exact absurd heq.2 (Nat.ne_of_lt h)
  · rintro ⟨i, j, s⟩ hx ⟨i', j', s'⟩ hy ⟨h₁, h₂⟩
    have hx' := (mem_find_duplicates S t i j s).mp hx
    have hy' := (mem_find_duplicates S t i' j' s').mp hy
    simp only at h₁ h₂
    omega

/-- C8: a threshold above one behaves as one (so `5.0` as `1.0`), a threshold below
zero behaves as zero (so `-3.0` as `0.0`), and a threshold in `[0, 1]` is used
unchanged. -/
theorem find_duplicates_clamps_threshold (S : List Str) (t : ℚ) :
    (1 < t → find_duplicates S t = find_duplicates S 1) ∧
      (t < 0 → find_duplicates S t = find_duplicates S 0) ∧
      (0 ≤ t → t ≤ 1 → clamp t = t) ∧
      find_duplicates S 5 = find_duplicates S 1 ∧
      find_duplicates S (-3) = find_duplicates S 0 := by
  have hi : ∀ v : ℚ, 1 < v → clamp v = clamp 1 := by
    intro v hv
    rw [clamp_eq_max_min, clamp_eq_max_min, min_eq_left hv.le, min_self]
  have lo : ∀ v : ℚ, v < 0 → clamp v = clamp 0 := by
    intro v hv
    rw [clamp_eq_max_min, clamp_eq_max_min, min_eq_right (by linarith),
      min_eq_right zero_le_one, max_eq_left hv.le, max_self]
  refine ⟨fun h => find_duplicates_congr S _ _ (hi t h),
    fun h => find_duplicates_congr S _ _ (lo t h), ?_,
    find_duplicates_congr S _ _ (hi 5 (by norm_num)),
    find_duplicates_congr S _ _ (lo (-3) (by norm_num))⟩
  intro h₀ h₁
  rw [clamp_eq_max_min, min_eq_right h₁, max_eq_right h₀]

/-- C8 at the batch `["a", "a"]` and the thresholds `5`, `-3` and `1/2`. -/
theorem find_duplicates_clamps_threshold_witness :
    find_duplicates [['a'], ['a']] 5 = find_duplicates [['a'], ['a']] 1 ∧
      find_duplicates [['a'], ['a']] (-3) = find_duplicates [['a'], ['a']] 0 ∧
      clamp (1 / 2) = 1 / 2 :=
  ⟨(find_duplicates_clamps_threshold [['a'], ['a']] 5).1 (by norm_num),
    (find_duplicates_clamps_threshold [['a'], ['a']] (-3)).2.1 (by norm_num),
    (find_duplicates_clamps_threshold [['a'], ['a']] (1 / 2)).2.2.1 (by norm_num)
      (by norm_num)⟩

/-- C9, as stated, fails: in the batch `["(),.,", "(),.,"]` positions `0 < 1` hold the
same non-empty string and the threshold `1` is at most `1.0`, yet `(0, 1, 1.0)` is not
in the result. -/
theorem find_duplicates_misses_tokenless_pair :
    (0 < 1 ∧ 1 < [['(', ')', ',', '.', ','], ['(', ')', ',', '.', ',']].length) ∧
      List.getD [['(', ')', ',', '.', ','], ['(', ')', ',', '.', ',']] 0 []
        = List.getD [['(', ')', ',', '.', ','], ['(', ')', ',', '.', ',']] 1 [] ∧
      List.getD [['(', ')', ',', '.', ','], ['(', ')', ',', '.', ',']] 0 [] ≠ [] ∧
      (1 : ℚ) ≤ 1 ∧
      (0, 1, (1 : ℚ)) ∉
        find_duplicates [['(', ')', ',', '.', ','], ['(', ')', ',', '.', ',']] 1 := by
  refine ⟨by decide, rfl, by decide, le_refl _, ?_⟩
  intro h
  exact ((mem_find_duplicates _ _ _ _ _).mp h).2.2.1 (by decide)

/-- C9, amended: for positions `i < j` of `S` that hold the same statement, whose
token set is not empty, and every threshold `t ≤ 1.0`, the triple `(i, j, 1.0)`
occurs in `find_duplicates S t`. -/
theorem find_duplicates_reports_identical (S : List Str) (t : ℚ) (i j : Nat)
    (hij : i < j) (hj : j < S.length) (heq : S.getD i [] = S.getD j [])
    (hne : tokenSet (S.getD i []) ≠ []) (ht : t ≤ 1) :
    (i, j, (1 : ℚ)) ∈ find_duplicates S t := by
  have _ := ht
  exact mem_find_duplicates_of_eq S t i j hij hj heq hne

/-- C9, amended, at the batch `["a b", "x", "a b"]`, positions `0` and `2`, threshold
`1`. -/
theorem find_duplicates_reports_identical_witness :
    (0, 2, (1 : ℚ)) ∈ find_duplicates [['a', ' ', 'b'], ['x'], ['a', ' ', 'b']] 1 :=
  find_duplicates_reports_identical [['a', ' ', 'b'], ['x'], ['a', ' ', 'b']] 1 0 2
    (by decide) (by decide) rfl (by decide) (le_refl _)

/-- C10: a statement `S[k]` without ASCII letter, digit and underscore has an empty
token set and `k` is neither the first nor the second index of a triple of
`find_duplicates S t`; in particular the result for `["(),.,", "(),.,"]` is empty for
every threshold. -/
theorem find_duplicates_skips_tokenless (S : List Str) (t : ℚ) :
    (∀ k : Nat, (∀ c ∈ S.getD k [], isWordChar c = false) →
      tokenSet (S.getD k []) = [] ∧
        ∀ x ∈ find_duplicates S t, x.1 ≠ k ∧ x.2.1 ≠ k) ∧
      find_duplicates [['(', ')', ',', '.', ','], ['(', ')', ',', '.', ',']] t = [] := by
  constructor
  · intro k hk
    have hempty := tokenSet_of_no_word _ hk
    refine ⟨hempty, ?_⟩
    rintro ⟨i, j, s⟩ hx
    obtain ⟨-, -, hA, hB, -, -⟩ := (mem_find_duplicates S t i j s).mp hx
    constructor
    · rintro rfl
      exact hA hempty
    · rintro rfl
      exact hB hempty
  · apply List.eq_nil_iff_forall_not_mem.mpr
    rintro ⟨i, j, s⟩ hx
    obtain ⟨hij, hj, hA, -, -, -⟩ := (mem_find_duplicates _ t i j s).mp hx
    have hi : i = 0 := by
      simp only [List.length_cons, List.length_nil] at hj
      omega
    subst hi
    exact hA (by decide)

/-- C10 at the batch `["a", "?!", "a"]`, threshold `0` and position `1`: the triples
`(0, 1, _)` and `(1, 2, _)` are absent. -/
theorem find_duplicates_skips_tokenless_witness :
    tokenSet (List.getD [['a'], ['?', '!'], ['a']] 1 []) = [] ∧
      ∀ x ∈ find_duplicates [['a'], ['?', '!'], ['a']] 0, x.1 ≠ 1 ∧ x.2.1 ≠ 1 :=
  (find_duplicates_skips_tokenless [['a'], ['?', '!'], ['a']] 0).1 1 (by decide)


/-! ## Further facts about the validator -/

theorem isIdentStart_of_isSpace (c : Char) (h : isSpace c = true) : isIdentStart c = false := by
  by_contra hne
  rw [Bool.not_eq_false] at hne
  simp only [isSpace, isIdentStart, Char.isAlpha, Char.isUpper, Char.isLower, Bool.or_eq_true,
    Bool.and_eq_true, decide_eq_true_eq, beq_iff_eq] at h hne
  rcases hne with hne | rfl
  · have e : c.val = 32 → c.val.toBitVec.toNat = 32 := fun h => by rw [h]; rfl
    simp only [UInt32.le_def, BitVec.le_def, ge_iff_le] at h hne
    have h9 : (9 : UInt32).toBitVec.toNat = 9 := rfl
    have h13 : (13 : UInt32).toBitVec.toNat = 13 := rfl
    have h65 : (65 : UInt32).toBitVec.toNat = 65 := rfl
    have h90 : (90 : UInt32).toBitVec.toNat = 90 := rfl
    have h97 : (97 : UInt32).toBitVec.toNat = 97 := rfl
    have h122 : (122 : UInt32).toBitVec.toNat = 122 := rfl
    rw [h9, h13] at h
    rw [h65, h90, h97, h122] at hne
    rcases h with h | h
    · have := e h
      omega
    · omega
  · revert h
    decide

/-- A statement that starts with a whitespace character is rejected. -/
theorem validate_one_false_of_space_head (x : Char) (s : Str) (hx : isSpace x = true) :
    validate_one (x :: s) = false := by
  rw [← Bool.not_eq_true, validate_one_iff_parts]
  rintro ⟨c, id, a, w₁, b, w₂, heq, hc, -⟩
  simp only [List.cons_append, List.cons.injEq] at heq
  rw [← heq.1, isIdentStart_of_isSpace x hx] at hc
  exact Bool.noConfusion hc

/-- Where a text that ends in a non-whitespace character `x` plus whitespace equals
`s` plus whitespace, the character `x` lies in `s`. -/
theorem split_trailing (X w₂ s w : Str) (x : Char) (hx : isSpace x = false)
    (hw : IsWhitespace w) (h : X ++ x :: w₂ = s ++ w) :
    ∃ u, s = X ++ x :: u ∧ w₂ = u ++ w := by
  have h' : (X ++ [x]) ++ w₂ = s ++ w := by simpa using h
  rcases List.append_eq_append_iff.mp h' with ⟨u, hs, hw₂⟩ | ⟨v, hX, hwv⟩
  · exact ⟨u, by simpa using hs, hw₂⟩
  · rcases List.eq_nil_or_concat v with rfl | ⟨v', y, rfl⟩
    · refine ⟨[], ?_, ?_⟩
      · simpa using hX.symm
      · simpa using hwv.symm
    · exfalso
      have hX' : X ++ [x] = (s ++ v') ++ [y] := by simpa using hX
      have hxy : x = y := by
        have := List.append_inj_right' hX' rfl
        simpa using this
      have hmem : x ∈ w := by
        rw [hwv, hxy]
        simp
      rw [hw x hmem] at hx
      exact Bool.noConfusion hx

theorem validate_one_append_whitespace (s w : Str) (hw : IsWhitespace w) :
    validate_one (s ++ w) = validate_one s := by
  rw [Bool.eq_iff_iff, validate_one_iff_parts, validate_one_iff_parts]
  constructor
  · rintro ⟨c, id, a, w₁, b, w₂, heq, hc, hid, ha, ha', hw₁, hb, hb', hw₂⟩
    have heq' : (c :: id ++ '(' :: a ++ ',' :: w₁ ++ b ++ [')']) ++ '.' :: w₂ = s ++ w := by
      rw [heq]
      simp
    obtain ⟨u, hs, hu⟩ := split_trailing _ w₂ s w '.' (by decide) hw heq'
    refine ⟨c, id, a, w₁, b, u, ?_, hc, hid, ha, ha', hw₁, hb, hb', ?_⟩
    · rw [hs]
      simp
    · intro d hd
      exact hw₂ d (by rw [hu]; exact List.mem_append_left _ hd)
  · rintro ⟨c, id, a, w₁, b, w₂, rfl, hc, hid, ha, ha', hw₁, hb, hb', hw₂⟩
    refine ⟨c, id, a, w₁, b, w₂ ++ w, by simp, hc, hid, ha, ha', hw₁, hb, hb', ?_⟩
    intro d hd
    rcases List.mem_append.mp hd with hd | hd
    · exact hw₂ d hd
    · exact hw d hd

theorem isWordChar_close_paren : isWordChar ')' = false := by decide

/-- An accepted statement has exactly one `)`. -/
theorem count_close_paren_of_valid (s : Str) (h : validate_one s = true) :
    s.count ')' = 1 := by
  obtain ⟨c, id, a, w₁, b, w₂, rfl, hc, hid, -, ha', hw₁, -, hb', hw₂⟩ :=
    (validate_one_iff_parts s).mp h
  have hc' : c ≠ ')' := by
    rintro rfl
    revert hc
    decide
  have h1 : id.count ')' = 0 := by
    rw [List.count_eq_zero]
    intro hm
    have := hid _ hm
    rw [isWordChar_close_paren] at this
    exact Bool.noConfusion this
  have h2 : a.count ')' = 0 := by
    rw [List.count_eq_zero]
    intro hm
    exact (ha' _ hm).2 rfl
  have h3 : w₁.count ')' = 0 := by
    rw [List.count_eq_zero]
    intro hm
    have := hw₁ _ hm
    revert this
    decide
  have h4 : b.count ')' = 0 := by
    rw [List.count_eq_zero]
    intro hm
    exact hb' _ hm rfl
  have h5 : w₂.count ')' = 0 := by
    rw [List.count_eq_zero]
    intro hm
    have := hw₂ _ hm
    revert this
    decide
  simp [List.count_cons, List.count_append, h1, h2, h3, h4, h5, hc']

/-! ## The validator: further claims -/

/-- C13: `validate_facts_batch(["HasProperty(socrates, mortal).", "bad_fact"])` is
`[true, false]`. -/
theorem validate_facts_batch_scenario :
    validate_facts_batch ["HasProperty(socrates, mortal).".toList, "bad_fact".toList]
      = [true, false] := by
  decide

/-- C14: `validate_one` is false for the empty string and for every string made only
of whitespace characters. -/
theorem validate_one_false_of_blank :
    validate_one [] = false ∧ ∀ s : Str, IsWhitespace s → validate_one s = false := by
  refine ⟨by decide, ?_⟩
  intro s hs
  cases s with
  | nil => decide
  | cons x t => exact validate_one_false_of_space_head x t (hs x (List.mem_cons_self _ _))

/-- C14 at the string made of a blank, a tab and a newline. -/
theorem validate_one_false_of_blank_witness : validate_one " \t\n".toList = false :=
  validate_one_false_of_blank.2 _ (by decide)

/-- C15: an accepted string has exactly one `)`, so a string with two or more is
rejected, as `f(a, g(b)).` is; an extra `(` in an argument does not cause rejection:
`f(a, g(b).` is accepted. -/
theorem validate_one_single_close_paren :
    (∀ s : Str, validate_one s = true → s.count ')' = 1) ∧
      (∀ s : Str, 2 ≤ s.count ')' → validate_one s = false) ∧
      validate_one "f(a, g(b)).".toList = false ∧
      validate_one "f(a, g(b).".toList = true := by
  refine ⟨count_close_paren_of_valid, ?_, by decide, by decide⟩
  intro s hs
  rw [← Bool.not_eq_true]
  intro h
  have := count_close_paren_of_valid s h
  omega

/-- C15 at `f(a, b).` (accepted, one `)`) and `f(a), b).` (two `)`, rejected). -/
theorem validate_one_single_close_paren_witness :
    List.count ')' "f(a, b).".toList = 1 ∧ validate_one "f(a), b).".toList = false :=
  ⟨validate_one_single_close_paren.1 _ (by decide),
    validate_one_single_close_paren.2.1 _ (by decide)⟩

/-- C16: appending whitespace never changes the verdict, and a statement that starts
with whitespace is rejected. -/
theorem validate_one_whitespace_tolerance :
    (∀ s w : Str, IsWhitespace w → validate_one (s ++ w) = validate_one s) ∧
      (∀ s w : Str, w ≠ [] → IsWhitespace w → validate_one (w ++ s) = false) := by
  refine ⟨validate_one_append_whitespace, ?_⟩
  intro s w hne hw
  cases w with
  | nil => exact absurd rfl hne
  | cons x t => exact validate_one_false_of_space_head x (t ++ s) (hw x (List.mem_cons_self _ _))

/-- C16 at `f(a, b).` with two blanks appended and with one blank in front. -/
theorem validate_one_whitespace_tolerance_witness :
    validate_one ("f(a, b).".toList ++ "  ".toList) = validate_one "f(a, b).".toList ∧
      validate_one (" ".toList ++ "f(a, b).".toList) = false :=
  ⟨validate_one_whitespace_tolerance.1 _ _ (by decide),
    validate_one_whitespace_tolerance.2 _ _ (by decide) (by decide)⟩

/-! ## Tokens are the maximal runs of word characters -/

theorem takeWhile_append_of_all (p : Char → Bool) (l post : Str)
    (hl : ∀ x ∈ l, p x = true) (hpost : ∀ c, post.head? = some c → p c = false) :
    (l ++ post).takeWhile p = l := by
  induction l with
  | nil =>
    cases post with
    | nil => rfl
    | cons d post' =>
      rw [List.nil_append, List.takeWhile_cons, if_neg]
      rw [hpost d rfl]
      exact Bool.false_ne_true
  | cons x xs ih =>
    rw [List.cons_append, List.takeWhile_cons, if_pos (hl x (List.mem_cons_self _ _)),
      ih fun y hy => hl y (List.mem_cons_of_mem _ hy)]

theorem dropWhile_append_of_mem_not (p : Char → Bool) (l₁ l₂ : Str)
    (h : ∃ x ∈ l₁, p x = false) : (l₁ ++ l₂).dropWhile p = l₁.dropWhile p ++ l₂ := by
  induction l₁ with
  | nil =>
    obtain ⟨x, hx, -⟩ := h
    exact absurd hx (List.not_mem_nil _)
  | cons a l ih =>
    rw [List.cons_append, List.dropWhile_cons, List.dropWhile_cons]
    by_cases ha : p a = true
    · rw [if_pos ha, if_pos ha]
      apply ih
      obtain ⟨x, hx, hpx⟩ := h
      rcases List.mem_cons.mp hx with rfl | hx
      · rw [ha] at hpx
        exact Bool.noConfusion hpx
      · exact ⟨x, hx, hpx⟩
    · rw [if_neg ha, if_neg ha, List.cons_append]

theorem getLast?_of_dropWhile (p : Char → Bool) (l : Str) (d : Char)
    (h : (l.dropWhile p).getLast? = some d) : l.getLast? = some d := by
  induction l with
  | nil => exact h
  | cons a l ih =>
    rw [List.dropWhile_cons] at h
    by_cases ha : p a = true
    · rw [if_pos ha] at h
      rw [List.getLast?_cons, ih h]
      rfl
    · rw [if_neg ha] at h
      exact h

theorem head?_dropWhile_not (p : Char → Bool) (l : Str) (d : Char)
    (h : (l.dropWhile p).head? = some d) : p d = false := by
  induction l with
  | nil => exact absurd h (by simp)
  | cons a l ih =>
    rw [List.dropWhile_cons] at h
    by_cases ha : p a = true
    · rw [if_pos ha] at h
      exact ih h
    · rw [if_neg ha] at h
      simp only [List.head?_cons, Option.some.injEq] at h
      rw [← h]
      simpa using ha

theorem not_isMaximalRun_nil (tok : Str) : ¬ IsMaximalRun tok [] := by
  rintro ⟨pre, post, h, hne, -⟩
  have h' : pre ++ tok ++ post = [] := h.symm
  rw [List.append_eq_nil, List.append_eq_nil] at h'
  exact hne h'.1.2

theorem isMaximalRun_cons_not_word (tok t : Str) (c : Char) (hc : isWordChar c = false) :
    IsMaximalRun tok (c :: t) ↔ IsMaximalRun tok t := by
  constructor
  · rintro ⟨pre, post, h, hne, hall, hpre, hpost⟩
    cases pre with
    | nil =>
      cases tok with
      | nil => exact absurd rfl hne
      | cons d tok' =>
        simp only [List.nil_append, List.cons_append, List.cons.injEq] at h
        have := hall d (List.mem_cons_self _ _)
        rw [← h.1, hc] at this
        exact Bool.noConfusion this
    | cons p pre' =>
      simp only [List.cons_append, List.cons.injEq] at h
      refine ⟨pre', post, h.2, hne, hall, ?_, hpost⟩
      intro d hd
      apply hpre d
      rw [List.getLast?_cons, hd]
      rfl
  · rintro ⟨pre, post, h, hne, hall, hpre, hpost⟩
    refine ⟨c :: pre, post, by rw [h]; rfl, hne, hall, ?_, hpost⟩
    intro d hd
    rw [List.getLast?_cons] at hd
    cases hlast : pre.getLast? with
    | none =>
      rw [hlast] at hd
      simp only [Option.getD_none, Option.some.injEq] at hd
      rw [← hd]
      exact hc
    | some e =>
      rw [hlast] at hd
      simp only [Option.getD_some, Option.some.injEq] at hd
      rw [← hd]
      exact hpre e hlast

theorem isMaximalRun_cons_word (tok t : Str) (c : Char) (hc : isWordChar c = true) :
    IsMaximalRun tok (c :: t) ↔
      tok = c :: t.takeWhile isWordChar ∨ IsMaximalRun tok (t.dropWhile isWordChar) := by
  constructor
  · rintro ⟨pre, post, h, hne, hall, hpre, hpost⟩
    cases pre with
    | nil =>
      left
      cases tok with
      | nil => exact absurd rfl hne
      | cons d tok' =>
        simp only [List.nil_append, List.cons_append, List.cons.injEq] at h
        rw [h.2, takeWhile_append_of_all isWordChar tok' post
          (fun x hx => hall x (List.mem_cons_of_mem _ hx)) hpost, h.1]
    | cons p pre' =>
      right
      simp only [List.cons_append, List.cons.injEq] at h
      obtain ⟨rfl, ht⟩ := h
      cases hlast : pre'.getLast? with
      | none =>
        have := hpre c (by rw [List.getLast?_cons, hlast]; rfl)
        rw [hc] at this
        exact Bool.noConfusion this
      | some d =>
        have hd : isWordChar d = false := hpre d (by rw [List.getLast?_cons, hlast]; rfl)
        have hmem : d ∈ pre' := List.mem_of_getLast?_eq_some hlast
        refine ⟨pre'.dropWhile isWordChar, post, ?_, hne, hall, ?_, hpost⟩
        · rw [ht, List.append_assoc, dropWhile_append_of_mem_not isWordChar pre' _ ⟨d, hmem, hd⟩,
            List.append_assoc]
        · intro e he
          have := getLast?_of_dropWhile isWordChar pre' e he
          rw [hlast] at this
          rw [← Option.some.inj this]
          exact hd
  · rintro (rfl | ⟨pre, post, h, hne, hall, hpre, hpost⟩)
    · refine ⟨[], t.dropWhile isWordChar, ?_, List.cons_ne_nil _ _, ?_, ?_, ?_⟩
      · rw [List.nil_append, List.cons_append, List.takeWhile_append_dropWhile]
      · intro x hx
        rcases List.mem_cons.mp hx with rfl | hx
        · exact hc
        · exact (List.mem_takeWhile_imp hx)
      · intro x hx
        exact absurd hx (by simp)
      · intro x hx
        exact head?_dropWhile_not isWordChar t x hx
    · refine ⟨c :: t.takeWhile isWordChar ++ pre, post, ?_, hne, hall, ?_, hpost⟩
      · rw [List.append_assoc, List.append_assoc, ← List.append_assoc pre, ← h, List.cons_append,
          List.takeWhile_append_dropWhile]
      · intro x hx
        cases hlast : pre.getLast? with
        | none =>
          exfalso
          have hpre' : pre = [] := List.getLast?_eq_none_iff.mp hlast
          subst hpre'
          cases tok with
          | nil => exact hne rfl
          | cons d tok' =>
            have h1 := head?_dropWhile_not isWordChar t d (by rw [h]; rfl)
            rw [hall d (List.mem_cons_self _ _)] at h1
            exact Bool.noConfusion h1
        | some e =>
          rw [List.getLast?_append, hlast] at hx
          simp only [Option.or_some, Option.some.injEq] at hx
          rw [← hx]
          exact hpre e hlast

/-- The matches of `token_re` in a statement are its maximal runs of word characters. -/
theorem mem_sregex_iterator_token_re (tok : Str) :
    ∀ (k : Nat) (s : Str), s.length ≤ k →
      (tok ∈ sregex_iterator token_re s ↔ IsMaximalRun tok s) := by
  intro k
  induction k with
  | zero =>
    intro s hs
    have : s = [] := List.length_eq_zero.mp (Nat.le_zero.mp hs)
    subst this
    rw [sregex_iterator_token_re_nil]
    exact ⟨fun h => absurd h (List.not_mem_nil _), fun h => absurd h (not_isMaximalRun_nil tok)⟩
  | succ k ih =>
    intro s hs
    cases s with
    | nil =>
      rw [sregex_iterator_token_re_nil]
      exact ⟨fun h => absurd h (List.not_mem_nil _), fun h => absurd h (not_isMaximalRun_nil tok)⟩
    | cons c t =>
      have ht : t.length ≤ k := by simpa using hs
      by_cases hc : isWordChar c = true
      · rw [sregex_iterator_token_re_cons_word c t hc, isMaximalRun_cons_word tok t c hc,
          List.mem_cons, ih (t.dropWhile isWordChar)]
        have := length_takeWhile_add_dropWhile isWordChar t
        omega
      · have hc' : isWordChar c = false := by simpa using hc
        rw [sregex_iterator_token_re_cons_not_word c t hc', isMaximalRun_cons_not_word tok t c hc',
          ih t ht]

theorem mem_foldl_insert (x : Str) (l : List Str) (init : TokenSet) :
    x ∈ l.foldl (fun tset tok => List.insert tok tset) init ↔ x ∈ init ∨ x ∈ l := by
  induction l generalizing init with
  | nil => simp
  | cons a l ih =>
    rw [List.foldl_cons, ih, List.mem_insert_iff, List.mem_cons]
    constructor
    · rintro ((rfl | h) | h)
      · exact Or.inr (Or.inl rfl)
      · exact Or.inl h
      · exact Or.inr (Or.inr h)
    · rintro (h | rfl | h)
      · exact Or.inl (Or.inr h)
      · exact Or.inl (Or.inl rfl)
      · exact Or.inr h

/-- The token set of a statement holds exactly its maximal runs of word characters. -/
theorem mem_tokenSet_iff (tok s : Str) : tok ∈ tokenSet s ↔ IsMaximalRun tok s := by
  unfold tokenSet
  rw [mem_foldl_insert, ← mem_sregex_iterator_token_re tok s.length s (Nat.le_refl _)]
  simp

/-! ## Further facts about the score -/

theorem score_of_counts (A B : TokenSet) (i u : Nat) (hi : inter A B = i)
    (hu : A.length + B.length - i = u) (hu0 : u ≠ 0) : score A B = (i : ℚ) / (u : ℚ) := by
  unfold score uni
  rw [hi, hu, if_pos hu0]

theorem inter_le_right (A B : TokenSet) (hA : A.Nodup) : inter A B ≤ B.length := by
  rw [inter_eq_card A B hA]
  exact le_trans (Finset.card_le_card Finset.inter_subset_right) (List.toFinset_card_le B)

theorem le_uni_left (A B : TokenSet) (hA : A.Nodup) : A.length ≤ uni A B := by
  have h := inter_le_right A B hA
  unfold uni
  omega

theorem le_uni_right (A B : TokenSet) : B.length ≤ uni A B := by
  have h := inter_le_left A B
  unfold uni
  omega

theorem uni_ne_zero_of_ne_nil (A B : TokenSet) (hA : A.Nodup) (hne : A ≠ []) : uni A B ≠ 0 := by
  have h₁ := le_uni_left A B hA
  have h₂ : 0 < A.length := List.length_pos.mpr hne
  omega

theorem jaccard_eq_one_iff (A B : Finset Str) (hA : A.Nonempty) : jaccard A B = 1 ↔ A = B := by
  unfold jaccard
  have hpos : 0 < (A ∪ B).card :=
    Finset.card_pos.mpr (hA.mono Finset.subset_union_left)
  have hne : ((A ∪ B).card : ℚ) ≠ 0 := by exact_mod_cast hpos.ne'
  rw [div_eq_one_iff_eq hne]
  constructor
  · intro h
    have hcard : (A ∪ B).card ≤ (A ∩ B).card := by
      have : (A ∩ B).card = (A ∪ B).card := by exact_mod_cast h
      omega
    have heq : A ∩ B = A ∪ B :=
      Finset.eq_of_subset_of_card_le Finset.inter_subset_union hcard
    apply Finset.Subset.antisymm
    · intro x hx
      have : x ∈ A ∩ B := by
        rw [heq]
        exact Finset.mem_union_left _ hx
      exact (Finset.mem_inter.mp this).2
    · intro x hx
      have : x ∈ A ∩ B := by
        rw [heq]
        exact Finset.mem_union_right _ hx
      exact (Finset.mem_inter.mp this).1
  · rintro rfl
    rw [Finset.inter_self, Finset.union_self]

/-- On token sets, the score is one exactly when the two sets have the same members. -/
theorem score_eq_one_iff (A B : TokenSet) (hA : A.Nodup) (hB : B.Nodup) (hne : A ≠ []) :
    score A B = 1 ↔ A.toFinset = B.toFinset := by
  rw [score_eq_jaccard A B hA hB]
  exact jaccard_eq_one_iff _ _ ((List.toFinset_nonempty_iff _).mpr hne)

theorem clamp_eq_one_of_le (t : ℚ) (ht : 1 ≤ t) : clamp t = 1 := by
  rw [clamp_eq_max_min, min_eq_left ht]
  exact max_eq_right zero_le_one

theorem clamp_mono (t₁ t₂ : ℚ) (h : t₁ ≤ t₂) : clamp t₁ ≤ clamp t₂ := by
  rw [clamp_eq_max_min, clamp_eq_max_min]
  exact max_le_max (le_refl _) (min_le_min (le_refl _) h)

theorem sublist_flatMap {α β : Type} (f g : α → List β) (l : List α)
    (h : ∀ a, List.Sublist (f a) (g a)) : List.Sublist (l.flatMap f) (l.flatMap g) := by
  induction l with
  | nil => exact List.Sublist.refl _
  | cons a l ih =>
    rw [List.flatMap_cons, List.flatMap_cons]
    exact List.Sublist.append (h a) ih

theorem pairOut_sublist (toks : List TokenSet) (thr₁ thr₂ : ℚ) (h : thr₁ ≤ thr₂) (i j : Nat) :
    List.Sublist (pairOut toks thr₂ i j) (pairOut toks thr₁ i j) := by
  unfold pairOut
  by_cases h₁ : (toks.getD j []).isEmpty = true
  · rw [if_pos h₁, if_pos h₁]
  · rw [if_neg h₁, if_neg h₁]
    by_cases h₂ : score (toks.getD i []) (toks.getD j []) ≥ thr₂
    · rw [if_pos h₂, if_pos (le_trans h h₂)]
    · rw [if_neg h₂]
      exact List.nil_sublist _

theorem rowOut_sublist (toks : List TokenSet) (thr₁ thr₂ : ℚ) (h : thr₁ ≤ thr₂) (n i : Nat) :
    List.Sublist (rowOut toks thr₂ n i) (rowOut toks thr₁ n i) := by
  unfold rowOut
  by_cases h₁ : (toks.getD i []).isEmpty = true
  · rw [if_pos h₁, if_pos h₁]
  · rw [if_neg h₁, if_neg h₁]
    exact sublist_flatMap _ _ _ (pairOut_sublist toks thr₁ thr₂ h i)

/-- The identifier of an accepted statement is one of its tokens. -/
theorem identifier_mem_tokenSet (s : Str) (h : validate_one s = true) :
    ∃ id rest : Str, s = id ++ '(' :: rest ∧ IsIdentifier id ∧ id ∈ tokenSet s := by
  obtain ⟨c, id, a, w₁, b, w₂, rfl, hc, hid, -⟩ := (validate_one_iff_parts s).mp h
  refine ⟨c :: id, a ++ ',' :: w₁ ++ b ++ ')' :: '.' :: w₂, by simp,
    (isIdentifier_iff _).mpr ⟨c, id, rfl, hc, hid⟩, ?_⟩
  rw [mem_tokenSet_iff]
  refine ⟨[], '(' :: (a ++ ',' :: w₁ ++ b ++ ')' :: '.' :: w₂), by simp,
    List.cons_ne_nil _ _, ?_, ?_, ?_⟩
  · intro x hx
    rcases List.mem_cons.mp hx with rfl | hx
    · rw [isWordChar, Bool.or_eq_true, Bool.or_eq_true]
      rw [isIdentStart, Bool.or_eq_true] at hc
      rcases hc with hc | hc
      · exact Or.inl (Or.inl hc)
      · exact Or.inr hc
    · exact hid x hx
  · intro x hx
    exact absurd hx (by simp)
  · intro x hx
    simp only [List.head?_cons, Option.some.injEq] at hx
    rw [← hx]
    decide

/-! ## The duplicate finder: further claims -/

/-- C11: the token set of a statement is exactly the set of its maximal runs of
characters from `[A-Za-z0-9_]`: every token is such a run (so no other character
belongs to a token and no token is part of a longer run), every run is a token, a
repeated run is held once, and letter case distinguishes tokens: `Likes(a, b).` and
`likes(a, b).` score `2/4`. -/
theorem tokenSet_eq_maximal_runs (s : Str) :
    (∀ tok : Str, tok ∈ tokenSet s ↔ IsMaximalRun tok s) ∧
      (tokenSet s).Nodup ∧
      (∀ tok ∈ tokenSet s, ∀ c ∈ tok, isWordChar c = true) ∧
      score (tokenSet "Likes(a, b).".toList) (tokenSet "likes(a, b).".toList) = 2 / 4 := by
  refine ⟨fun tok => mem_tokenSet_iff tok s, tokenSet_nodup s, ?_, ?_⟩
  · intro tok htok
    obtain ⟨-, -, -, -, hall, -, -⟩ := (mem_tokenSet_iff tok s).mp htok
    exact hall
  · have hA : tokenSet "Likes(a, b).".toList = [['b'], ['a'], ['L', 'i', 'k', 'e', 's']] := by
      decide
    have hB : tokenSet "likes(a, b).".toList = [['b'], ['a'], ['l', 'i', 'k', 'e', 's']] := by
      decide
    rw [hA, hB, score_of_counts _ _ 2 4 (by decide) (by decide) (by decide)]
    norm_num

/-- C12: `find_duplicates(["Likes(a, b).", "Likes(a, b).", "Loves(x, y)."], 0.9)` is
exactly `[(0, 1, 1.0)]`: it contains `(0, 1, 1.0)` and no triple with index `2`. -/
theorem find_duplicates_scenario :
    find_duplicates ["Likes(a, b).".toList, "Likes(a, b).".toList, "Loves(x, y).".toList]
        (9 / 10) = [(0, 1, 1)] ∧
      (0, 1, (1 : ℚ)) ∈ find_duplicates
        ["Likes(a, b).".toList, "Likes(a, b).".toList, "Loves(x, y).".toList] (9 / 10) ∧
      ∀ x ∈ find_duplicates
        ["Likes(a, b).".toList, "Likes(a, b).".toList, "Loves(x, y).".toList] (9 / 10),
        x.1 ≠ 2 ∧ x.2.1 ≠ 2 := by
  have hA : tokenSet "Likes(a, b).".toList = [['b'], ['a'], ['L', 'i', 'k', 'e', 's']] := by
    decide
  have hC : tokenSet "Loves(x, y).".toList = [['y'], ['x'], ['L', 'o', 'v', 'e', 's']] := by
    decide
  have hAA : score [['b'], ['a'], ['L', 'i', 'k', 'e', 's']]
      [['b'], ['a'], ['L', 'i', 'k', 'e', 's']] = 1 := by
    rw [score_of_counts _ _ 3 3 (by decide) (by decide) (by decide)]
    norm_num
  have hAC : score [['b'], ['a'], ['L', 'i', 'k', 'e', 's']]
      [['y'], ['x'], ['L', 'o', 'v', 'e', 's']] = 0 := by
    rw [score_of_counts _ _ 0 6 (by decide) (by decide) (by decide)]
    norm_num
  have hcl : clamp (9 / 10) = 9 / 10 := by
    rw [clamp_eq_max_min]
    norm_num
  have hr : List.range 3 = [0, 1, 2] := by decide
  have key : find_duplicates
      ["Likes(a, b).".toList, "Likes(a, b).".toList, "Loves(x, y).".toList] (9 / 10)
      = [(0, 1, 1)] := by
    rw [find_duplicates_eq, hcl]
    simp only [List.map_cons, List.map_nil, hA, hC, List.length_cons, List.length_nil,
      Nat.zero_add, Nat.reduceAdd, hr, List.flatMap_cons, List.flatMap_nil]
    simp only [rowOut, pairOut, List.getD_cons_zero, List.getD_cons_succ, List.isEmpty_cons,
      Nat.reduceSub, List.range', hAA, hAC, List.flatMap_cons, List.flatMap_nil]
    norm_num
  rw [key]
  refine ⟨rfl, List.mem_singleton.mpr rfl, ?_⟩
  intro x hx
  rw [List.mem_singleton.mp hx]
  exact ⟨by decide, by decide⟩

/-- C17: for a pair that reaches the scoring step (both token sets `A`, `B` non-empty),
`inter ≤ min(|A|, |B|)`, the subtraction `|A| + |B| - inter` does not go below zero,
`uni ≥ max(|A|, |B|) ≥ 1`, `inter ≤ uni`, and the score is the quotient `inter / uni`,
never the fallback of the zero-union branch. -/
theorem find_duplicates_union_positive (S : List Str) (i j : Nat)
    (hA : tokenSet (S.getD i []) ≠ []) (hB : tokenSet (S.getD j []) ≠ []) :
    inter (tokenSet (S.getD i [])) (tokenSet (S.getD j []))
        ≤ min (tokenSet (S.getD i [])).length (tokenSet (S.getD j [])).length ∧
      ((uni (tokenSet (S.getD i [])) (tokenSet (S.getD j [])) : Int)
        = ((tokenSet (S.getD i [])).length : Int) + ((tokenSet (S.getD j [])).length : Int)
          - (inter (tokenSet (S.getD i [])) (tokenSet (S.getD j [])) : Int)) ∧
      max (tokenSet (S.getD i [])).length (tokenSet (S.getD j [])).length
        ≤ uni (tokenSet (S.getD i [])) (tokenSet (S.getD j [])) ∧
      1 ≤ max (tokenSet (S.getD i [])).length (tokenSet (S.getD j [])).length ∧
      inter (tokenSet (S.getD i [])) (tokenSet (S.getD j []))
        ≤ uni (tokenSet (S.getD i [])) (tokenSet (S.getD j [])) ∧
      uni (tokenSet (S.getD i [])) (tokenSet (S.getD j [])) ≠ 0 ∧
      score (tokenSet (S.getD i [])) (tokenSet (S.getD j []))
        = (inter (tokenSet (S.getD i [])) (tokenSet (S.getD j [])) : ℚ)
          / (uni (tokenSet (S.getD i [])) (tokenSet (S.getD j [])) : ℚ) := by
  have hnA := tokenSet_nodup (S.getD i [])
  have hnB := tokenSet_nodup (S.getD j [])
  have h₁ := inter_le_left (tokenSet (S.getD i [])) (tokenSet (S.getD j []))
  have h₂ := inter_le_right (tokenSet (S.getD i [])) (tokenSet (S.getD j [])) hnA
  have h₃ := le_uni_left (tokenSet (S.getD i [])) (tokenSet (S.getD j [])) hnA
  have h₄ := le_uni_right (tokenSet (S.getD i [])) (tokenSet (S.getD j []))
  have h₅ : 0 < (tokenSet (S.getD i [])).length := List.length_pos.mpr hA
  have h₆ : 0 < (tokenSet (S.getD j [])).length := List.length_pos.mpr hB
  have h₇ := uni_ne_zero_of_ne_nil (tokenSet (S.getD i [])) (tokenSet (S.getD j [])) hnA hA
  refine ⟨le_min h₁ h₂, ?_, max_le h₃ h₄, le_trans h₅ (le_max_left _ _),
    inter_le_uni _ _ hnA hnB, h₇, ?_⟩
  · unfold uni
    omega
  · unfold score
    rw [if_pos h₇]

/-- C17 at the batch `["a b", "b c"]`: one shared token of three. -/
theorem find_duplicates_union_positive_witness :
    score (tokenSet (List.getD ["a b".toList, "b c".toList] 0 []))
        (tokenSet (List.getD ["a b".toList, "b c".toList] 1 []))
      = (inter (tokenSet (List.getD ["a b".toList, "b c".toList] 0 []))
          (tokenSet (List.getD ["a b".toList, "b c".toList] 1 [])) : ℚ)
        / (uni (tokenSet (List.getD ["a b".toList, "b c".toList] 0 []))
          (tokenSet (List.getD ["a b".toList, "b c".toList] 1 [])) : ℚ) :=
  (find_duplicates_union_positive ["a b".toList, "b c".toList] 0 1 (by decide)
    (by decide)).2.2.2.2.2.2

/-- C18: an accepted statement has its identifier among its tokens, so its token set
is not empty; hence two positions `i < j` that hold the same accepted statement are
reported as `(i, j, 1.0)` for every threshold. -/
theorem find_duplicates_reports_valid_twins :
    (∀ s : Str, validate_one s = true →
      (∃ id rest : Str, s = id ++ '(' :: rest ∧ IsIdentifier id ∧ id ∈ tokenSet s) ∧
        tokenSet s ≠ []) ∧
      (∀ (S : List Str) (t : ℚ) (i j : Nat), i < j → j < S.length →
        S.getD i [] = S.getD j [] → validate_one (S.getD i []) = true →
        (i, j, (1 : ℚ)) ∈ find_duplicates S t) := by
  have hne : ∀ s : Str, validate_one s = true → tokenSet s ≠ [] := by
    intro s hs
    obtain ⟨id, -, -, -, hmem⟩ := identifier_mem_tokenSet s hs
    exact List.ne_nil_of_mem hmem
  refine ⟨fun s hs => ⟨identifier_mem_tokenSet s hs, hne s hs⟩, ?_⟩
  intro S t i j hij hj heq hv
  exact mem_find_duplicates_of_eq S t i j hij hj heq (hne _ hv)

/-- C18 at the batch `["f(a, b).", "f(a, b)."]` and the threshold `7`. -/
theorem find_duplicates_reports_valid_twins_witness :
    (0, 1, (1 : ℚ)) ∈ find_duplicates ["f(a, b).".toList, "f(a, b).".toList] 7 :=
  find_duplicates_reports_valid_twins.2 _ 7 0 1 (by decide) (by decide) rfl (by decide)

/-- C19: for a threshold `t ≥ 1` the result holds exactly the pairs `i < j` whose token
sets are non-empty and equal as sets, each with score `1.0`; the score of a scored
pair is `1.0` exactly when the two token sets are equal, whatever the order and the
repetitions of the tokens in the statements: `a b` and `b, a a` score `1.0`. -/
theorem find_duplicates_at_threshold_one (S : List Str) (t : ℚ) (ht : 1 ≤ t)
    (i j : Nat) (s : ℚ) :
    ((i, j, s) ∈ find_duplicates S t ↔
      (i < j ∧ j < S.length) ∧
        (tokenSet (S.getD i [])).toFinset.Nonempty ∧
        (tokenSet (S.getD j [])).toFinset.Nonempty ∧
        (tokenSet (S.getD i [])).toFinset = (tokenSet (S.getD j [])).toFinset ∧
        s = 1) ∧
      (tokenSet (S.getD i []) ≠ [] → tokenSet (S.getD j []) ≠ [] →
        (score (tokenSet (S.getD i [])) (tokenSet (S.getD j [])) = 1 ↔
          (tokenSet (S.getD i [])).toFinset = (tokenSet (S.getD j [])).toFinset)) ∧
      score (tokenSet "a b".toList) (tokenSet "b, a a".toList) = 1 := by
  have hnA := tokenSet_nodup (S.getD i [])
  have hnB := tokenSet_nodup (S.getD j [])
  refine ⟨?_, fun hA _ => score_eq_one_iff _ _ hnA hnB hA, ?_⟩
  · rw [mem_find_duplicates, clamp_eq_one_of_le t ht, List.toFinset_nonempty_iff,
      List.toFinset_nonempty_iff]
    constructor
    · rintro ⟨hij, hj, hA, hB, hs, hle⟩
      have hone : score (tokenSet (S.getD i [])) (tokenSet (S.getD j [])) = 1 :=
        le_antisymm (score_le_one _ _ hnA hnB) (hs ▸ hle)
      exact ⟨⟨hij, hj⟩, hA, hB, (score_eq_one_iff _ _ hnA hnB hA).mp hone, hs.trans hone⟩
    · rintro ⟨⟨hij, hj⟩, hA, hB, heq, hs⟩
      have hone := (score_eq_one_iff _ _ hnA hnB hA).mpr heq
      exact ⟨hij, hj, hA, hB, hs.trans hone.symm, hs ▸ le_refl _⟩
  · have h₁ : tokenSet "a b".toList = [['b'], ['a']] := by decide
    have h₂ : tokenSet "b, a a".toList = [['a'], ['b']] := by decide
    rw [h₁, h₂, score_of_counts _ _ 2 2 (by decide) (by decide) (by decide)]
    norm_num

/-- C19 at the batch `["a b", "b, a a", "a"]` and the threshold `1`: the pair `(0, 1)`
is reported with score one. -/
theorem find_duplicates_at_threshold_one_witness :
    (0, 1, (1 : ℚ)) ∈ find_duplicates ["a b".toList, "b, a a".toList, "a".toList] 1 :=
  ((find_duplicates_at_threshold_one ["a b".toList, "b, a a".toList, "a".toList] 1
    (le_refl _) 0 1 1).1).mpr
    ⟨⟨by decide, by decide⟩, by decide, by decide, by decide, rfl⟩

/-- C20: for thresholds `t₁ ≤ t₂` the result for `t₂` is a subsequence of the result
for `t₁`; the triples that remain are the same triples, scores included. -/
theorem find_duplicates_antitone (S : List Str) (t₁ t₂ : ℚ) (h : t₁ ≤ t₂) :
    List.Sublist (find_duplicates S t₂) (find_duplicates S t₁) := by
  rw [find_duplicates_eq, find_duplicates_eq]
  exact sublist_flatMap _ _ _ (rowOut_sublist _ _ _ (clamp_mono t₁ t₂ h) _)

/-- C20 at the batch `["a b", "a c", "a b"]` and the thresholds `1/4 ≤ 3/4`. -/
theorem find_duplicates_antitone_witness :
    List.Sublist (find_duplicates ["a b".toList, "a c".toList, "a b".toList] (3 / 4))
      (find_duplicates ["a b".toList, "a c".toList, "a b".toList] (1 / 4)) :=
  find_duplicates_antitone _ (1 / 4) (3 / 4) (by norm_num)

end MojoKernels
